import Mathlib

/-!
Shallow embedding of the search-engine core of this repository
(`Assignment-01/search_engine.py`: `NounExtractor`, `HashTable`, `Indexer`,
`SearchEngine`).  Texts and tokens are lists of characters (`String.data` of the
Python strings); integers are `Nat`; the floating-point TF-IDF scores are
modelled over `ℚ` with the `math.log` function abstracted as a parameter
`lg : ℚ → ℚ`, so every theorem below quantifying over `lg` holds in particular
for (any rational approximation of) the natural logarithm, and refutations
instantiate `lg` at functions sharing the relevant properties of `ln`.
-/

/-- Python `\s` whitespace: space, tab, newline, carriage return, vertical tab,
    form feed. -/
def isPySpace (c : Char) : Bool :=
  c = ' ' || c = '\t' || c = '\n' || c = '\r' || c = Char.ofNat 11 || c = Char.ofNat 12

/-- A character survives the punctuation regex of `SearchEngine.preprocessing`
    (the `re.sub` call deleting every character outside letters, digits and
    whitespace) iff it is an ASCII letter, an ASCII digit, or whitespace. -/
def keepChar (c : Char) : Bool :=
  ('a' ≤ c && c ≤ 'z') || ('A' ≤ c && c ≤ 'Z') || ('0' ≤ c && c ≤ '9') || isPySpace c

/-- The punctuation-deleting `re.sub` step of `SearchEngine.preprocessing`. -/
def stripPunct (cs : List Char) : List Char := cs.filter keepChar

/-- Python `str.strip()`: drop leading and trailing whitespace. -/
def pyStrip (cs : List Char) : List Char :=
  ((cs.dropWhile isPySpace).reverse.dropWhile isPySpace).reverse

/-- Helper for `splitWS`: walks the characters accumulating the current token
    (in reverse) and cutting at whitespace. -/
def splitWSAux : List Char → List Char → List (List Char)
  | [], acc => if acc.isEmpty then [] else [acc.reverse]
  | c :: cs, acc =>
    if isPySpace c then
      if acc.isEmpty then splitWSAux cs [] else acc.reverse :: splitWSAux cs []
    else splitWSAux cs (c :: acc)

/-- Whitespace tokenization: maximal runs of non-whitespace characters, no empty
    tokens.  This is the Python `str.split()` function and also models the
    `nltk.word_tokenize` call of `SearchEngine.preprocessing`: that call happens
    after the punctuation regex, so its input contains only ASCII alphanumerics
    and whitespace, on which `word_tokenize` coincides with whitespace splitting. -/
def splitWS (cs : List Char) : List (List Char) := splitWSAux cs []

/-- A token. -/
abbrev Tok := List Char

/-- Python `str.lower()` on a token (ASCII after the regex strip). -/
def lowerTok (w : Tok) : Tok := w.map Char.toLower

/-- The NLTK English stopword list used by `preprocessing`
    (`stopwords.words` for English).  The NLTK list additionally contains
    contraction forms spelled with an apostrophe; the
    punctuation regex removes apostrophes from every token before the stopword
    test, so those entries can never match a token and are omitted from the
    model. -/
def stop_words : List Tok :=
  (["i", "me", "my", "myself", "we", "our", "ours", "ourselves", "you", "your",
    "yours", "yourself", "yourselves", "he", "him", "his", "himself", "she",
    "her", "hers", "herself", "it", "its", "itself", "they", "them", "their",
    "theirs", "themselves", "what", "which", "who", "whom", "this", "that",
    "these", "those", "am", "is", "are", "was", "were", "be", "been", "being",
    "have", "has", "had", "having", "do", "does", "did", "doing", "a", "an",
    "the", "and", "but", "if", "or", "because", "as", "until", "while", "of",
    "at", "by", "for", "with", "about", "against", "between", "into", "through",
    "during", "before", "after", "above", "below", "to", "from", "up", "down",
    "in", "out", "on", "off", "over", "under", "again", "further", "then",
    "once", "here", "there", "when", "where", "why", "how", "all", "any",
    "both", "each", "few", "more", "most", "other", "some", "such", "no",
    "nor", "not", "only", "own", "same", "so", "than", "too", "very", "s",
    "t", "can", "will", "just", "don", "should", "now", "d", "ll", "m", "o",
    "re", "ve", "y", "ain", "aren", "couldn", "didn", "doesn", "hadn", "hasn",
    "haven", "isn", "ma", "mightn", "mustn", "needn", "shan", "shouldn",
    "wasn", "weren", "won", "wouldn"] : List String).map String.data

/-- Source `NounExtractor.collective_nouns`. -/
def collective_nouns : List Tok :=
  (["team", "family", "flock", "jury", "committee", "army", "crowd", "group",
    "class", "band", "company", "panel", "crew", "squad", "community",
    "faculty"] : List String).map String.data

/-- Source `NounExtractor.material_nouns`. -/
def material_nouns : List Tok :=
  (["gold", "silver", "wood", "iron", "plastic", "steel", "water", "air",
    "glass", "oil", "sand", "grain", "copper", "aluminum", "cotton",
    "wool"] : List String).map String.data

/-- Source `NounExtractor.abstract_nouns` (the Python set literal lists `"wisdom"`
    twice; a set keeps one copy). -/
def abstract_nouns : List Tok :=
  (["freedom", "love", "beauty", "intelligence", "honesty", "wisdom",
    "courage", "justice", "happiness", "truth", "faith", "strength",
    "loyalty", "peace", "compassion", "patience", "humility", "dignity",
    "friendship", "hope", "creativity", "charity", "grace", "empathy",
    "kindness", "trust", "ambition", "confidence", "passion", "resilience",
    "integrity", "curiosity", "gratitude", "discipline", "honor",
    "imagination", "respect", "generosity", "perseverance", "sincerity",
    "thoughtfulness", "unity"] : List String).map String.data

/-- Source `NounExtractor.determiners`. -/
def determiners : List Tok := (["a", "an", "the"] : List String).map String.data

/-- One of the characters stripped by `word.strip(",.!?")`. -/
def isStripChar (c : Char) : Bool := c = ',' || c = '.' || c = '!' || c = '?'

/-- Python `word.strip(",.!?")`: drop those characters from both ends. -/
def tokStripPy (w : Tok) : Tok :=
  ((w.dropWhile isStripChar).reverse.dropWhile isStripChar).reverse

/-- Source `word[0].isupper()`.  Python raises `IndexError` on an empty string; tokens
    reaching this test come from the whitespace tokenizer and are never empty,
    so the `[]` case is unreachable and modelled as `false`. -/
def headIsUpper (w : Tok) : Bool :=
  match w with
  | [] => false
  | c :: _ => c.isUpper

/-- The possessive suffix, an apostrophe followed by s (`Char.ofNat 39` is the
    apostrophe character). -/
def possessive_suffix : Tok := [Char.ofNat 39, 's']

/-- The Python `word.endswith` test against the possessive suffix. -/
def endsWithPossessive (w : Tok) : Bool :=
  decide (w.reverse.take 2 = possessive_suffix.reverse)

/-- The `if/elif` rule chain of `NounExtractor.extract_nouns` for the word at
    position `i`; `w` is the `,.!?`-stripped word, while the determiner test
    looks at the unstripped previous word `words[i-1]`.  Every branch performs
    the same action (add `w` to the set), so the chain is a disjunction. -/
def isNounWord (words : List Tok) (i : Nat) (w : Tok) : Bool :=
  (headIsUpper w && (i == 0 || !(decide (lowerTok (words.getD (i - 1) []) ∈ determiners)))) ||
  decide (lowerTok w ∈ collective_nouns) ||
  decide (lowerTok w ∈ material_nouns) ||
  endsWithPossessive w ||
  decide ('-' ∈ w) ||
  decide (lowerTok w ∈ abstract_nouns)

/-- Source `NounExtractor.extract_nouns`: iterate over the tokens with their indices,
    strip `,.!?`, apply the rule chain, and collect the matches in a Python
    `set`.  The set is modelled as a duplicate-free list in first-insertion
    order; the Python set iteration order is unspecified, and no theorem below
    depends on this order. -/
def extract_nouns (words : List Tok) : List Tok :=
  words.enum.foldl
    (fun nouns iw =>
      let w := tokStripPy iw.2
      if isNounWord words iw.1 w then (if w ∈ nouns then nouns else nouns ++ [w]) else nouns)
    []

/-- Source `SearchEngine.preprocessing(text, is_query)`: punctuation regex, `strip()`,
    tokenize, optionally (`is_query = false`) the noun extractor, then drop
    tokens whose lowercase form is a stopword. -/
def preprocessing (text : List Char) (is_query : Bool) : List Tok :=
  let t := pyStrip (stripPunct text)
  let word_tokens := splitWS t
  let word_tokens := if is_query then word_tokens else extract_nouns word_tokens
  word_tokens.filter (fun w => !(decide (lowerTok w ∈ stop_words)))

/-- One posting: one of the per-document dicts holding a doc id and a count. -/
structure Posting where
  doc_id : Nat
  count : Nat
deriving DecidableEq, Repr

/-- A hash-table bucket: an ordered list of `(key, value)` pairs.  Python
    distinguishes `None` from an empty list, but every use (`if bucket:` /
    `if self.table[index] is None:`) treats them alike, so both are `[]`. -/
abbrev Bucket := List (Tok × List Posting)

/-- The chained hash table of `search_engine.py`. -/
structure HashTable where
  table : List Bucket
  size : Nat
  count : Nat
deriving DecidableEq, Repr

/-- Source `HashTable._hash`: polynomial rolling hash, reduced modulo the current
    capacity at each step (`ord` is `Char.toNat`). -/
def hashKey (key : Tok) (size : Nat) : Nat :=
  key.foldl (fun h c => (h * 31 + c.toNat) % size) 0

/-- Source `HashTable.__init__` with the default `initial_size=16`. -/
def HashTable.empty : HashTable := ⟨List.replicate 16 [], 16, 0⟩

/-- First-match association lookup, the linear scan used on buckets
    (`for stored_key, stored_value in self.table[index]`). -/
def assocFind {α β : Type} [DecidableEq α] : List (α × β) → α → Option β
  | [], _ => none
  | (a, b) :: rest, k => if a = k then some b else assocFind rest k

/-- The merge loop inside `HashTable.insert`: find the first posting with this
    `doc_id` and increment its count by one, else append the new posting at the
    end. -/
def bumpPostings : List Posting → Posting → List Posting
  | [], p => [p]
  | q :: qs, p =>
    if q.doc_id = p.doc_id then { q with count := q.count + 1 } :: qs
    else q :: bumpPostings qs p

/-- Update the first entry of the bucket holding `key` by merging posting `p`
    into its posting list (the `for i, (existing_key, existing_value) in
    enumerate(...)` loop of `HashTable.insert`). -/
def mergeIntoBucket : Bucket → Tok → Posting → Bucket
  | [], _, _ => []
  | (k, ps) :: rest, key, p =>
    if k = key then (k, bumpPostings ps p) :: rest
    else (k, ps) :: mergeIntoBucket rest key p

/-- One step of the rehash loop of `HashTable._resize`: append the pair to the
    bucket at its new index. -/
def pushPair (size : Nat) (tbl : List Bucket) (e : Tok × List Posting) : List Bucket :=
  tbl.set (hashKey e.1 size) (tbl.getD (hashKey e.1 size) [] ++ [e])

/-- Source `HashTable._resize`: double the capacity, then rehash every `(key, value)`
    pair, bucket by bucket and in order, into a fresh table (`self.size *= 2`
    happens before rehashing, so the new capacity is used). -/
def HashTable.resize (ht : HashTable) : HashTable :=
  let ns := ht.size * 2
  { table := ht.table.flatten.foldl (pushPair ns) (List.replicate ns []),
    size := ns, count := ht.count }

/-- Source `HashTable.insert`.  If the bucket already has the key, the merge policy
    applies to `value[0]` and the method returns without touching `count` (the
    `none` case of `value.head?` is where Python would raise an `IndexError`
    evaluating `value[0]`; every call site passes a singleton list).  Otherwise
    the pair is appended, `count` is incremented, and the table resizes when
    `count > size * 0.7`; `count` and `size` are integers and every reachable
    `size` is `16 · 2^k`, for which `0.7 * size` is never an integer and the
    binary-float comparison coincides with the exact `10 * count > 7 * size`. -/
def HashTable.insert (ht : HashTable) (key : Tok) (value : List Posting) : HashTable :=
  let idx := hashKey key ht.size
  let bucket := ht.table.getD idx []
  match assocFind bucket key with
  | some _ =>
    match value.head? with
    | none => ht
    | some p => { ht with table := ht.table.set idx (mergeIntoBucket bucket key p) }
  | none =>
    let ht' : HashTable :=
      { table := ht.table.set idx (bucket ++ [(key, value)]), size := ht.size,
        count := ht.count + 1 }
    if 7 * ht'.size < 10 * ht'.count then ht'.resize else ht'

/-- Source `HashTable.lookup`: scan the bucket at the index of the key, `none` when absent. -/
def HashTable.lookup (ht : HashTable) (key : Tok) : Option (List Posting) :=
  assocFind (ht.table.getD (hashKey key ht.size) []) key

/-- Delete the first pair with this key from a bucket (`del self.table[index][i]`). -/
def bucketRemove : Bucket → Tok → Bucket
  | [], _ => []
  | (k, ps) :: rest, key =>
    if k = key then rest else (k, ps) :: bucketRemove rest key

/-- Source `HashTable.remove`: delete the first matching pair of the bucket of the key and
    decrement `count`, returning whether the key was found. -/
def HashTable.remove (ht : HashTable) (key : Tok) : Bool × HashTable :=
  let idx := hashKey key ht.size
  let bucket := ht.table.getD idx []
  match assocFind bucket key with
  | some _ =>
    let ht' : HashTable :=
      { table := ht.table.set idx (bucketRemove bucket key), size := ht.size,
        count := ht.count - 1 }
    (true, ht')
  | none => (false, ht)

/-- Source `Indexer.add_document`: insert every word, lowercased, with a fresh
    fresh singleton posting list carrying that doc id with count 1. -/
def indexerAddDocument (index : HashTable) (doc_id : Nat) (words : List Tok) : HashTable :=
  words.foldl (fun h word => h.insert (lowerTok word) [⟨doc_id, 1⟩]) index

/-- Source `Indexer.search`: for each query word in order, look up its lowercase form
    and emit one `(query word, doc_id, count)` record per posting.  The Python
    code renders each record as a string which `search_by_title` /
    `search_by_content` then parses back; the records carry the parsed fields.
    A `None` result is skipped (`if search_result:`; an empty list would also be
    skipped but contributes no record either way). -/
def indexerSearch (index : HashTable) (query_words : List Tok) : List (Tok × Nat × Nat) :=
  query_words.foldl
    (fun results word =>
      match index.lookup (lowerTok word) with
      | none => results
      | some ps => results ++ ps.map (fun p => (word, p.doc_id, p.count)))
    []

/-- The `SearchEngine` state: two indexers, the `doc_lengths` and `documents`
    dicts (modelled as insertion-ordered association lists; every inserted key
    is fresh, so dict semantics and association-list semantics agree), and the
    running counter `no_of_docs`, initialized to `1`. -/
structure SearchEngine where
  indexer_title : HashTable
  indexer_content : HashTable
  doc_lengths : List (Nat × Nat)
  documents : List (Nat × (List Char × List Char))
  no_of_docs : Nat
deriving DecidableEq, Repr

/-- Source `SearchEngine.__init__`. -/
def SearchEngine.init : SearchEngine := ⟨HashTable.empty, HashTable.empty, [], [], 1⟩

/-- Source `SearchEngine.add_document`: preprocess title and content, both with
    `is_query=False`, feed each to its indexer under the current `no_of_docs`,
    store the raw document, store `len(content.split())` as the document
    length, and bump the counter. -/
def SearchEngine.add_document (e : SearchEngine) (title content : List Char) : SearchEngine :=
  let preprocessed_title := preprocessing title false
  let preprocessed_content := preprocessing content false
  { indexer_title := indexerAddDocument e.indexer_title e.no_of_docs preprocessed_title,
    indexer_content := indexerAddDocument e.indexer_content e.no_of_docs preprocessed_content,
    documents := e.documents ++ [(e.no_of_docs, (title, content))],
    doc_lengths := e.doc_lengths ++ [(e.no_of_docs, (splitWS content).length)],
    no_of_docs := e.no_of_docs + 1 }

/-- Source `SearchEngine.add_document` together with its return value: the Python
    method body has no `return` statement, so the call evaluates to `None`. -/
def SearchEngine.add_document_ret (e : SearchEngine) (title content : List Char) :
    SearchEngine × Option Nat :=
  (e.add_document title content, none)

/-- The engine obtained by adding the given `(title, content)` documents, in
    order, to a fresh engine (what `load_documents` does). -/
def build_engine (docs : List (List Char × List Char)) : SearchEngine :=
  docs.foldl (fun e d => e.add_document d.1 d.2) SearchEngine.init

/-- Source `SearchEngine.search_by_title`: preprocess the query with `is_query=True`,
    run `Indexer.search` on the title index, and render, for each record, the document
    id, title and content (the Python code re-parses the doc id from the
    formatted string and fetches `self.documents[doc_id]`). -/
def SearchEngine.search_by_title (e : SearchEngine) (query : List Char) :
    List (Nat × (List Char × List Char)) :=
  let words := preprocessing query true
  (indexerSearch e.indexer_title words).map
    (fun r => (r.2.1, (assocFind e.documents r.2.1).getD ([], [])))

/-- Source `SearchEngine.search_by_content`: same as `search_by_title` against the
    content index. -/
def SearchEngine.search_by_content (e : SearchEngine) (query : List Char) :
    List (Nat × (List Char × List Char)) :=
  let words := preprocessing query true
  (indexerSearch e.indexer_content words).map
    (fun r => (r.2.1, (assocFind e.documents r.2.1).getD ([], [])))

/-- Source `scores[doc_id] += x` on the scores dict: modelled on the association list
    by updating the entry in place (keys are the distinct document ids, so at
    most one entry changes; a missing id would be a Python `KeyError` and is
    unreachable, here a no-op). -/
def updScore (scores : List (Nat × ℚ)) (d : Nat) (x : ℚ) : List (Nat × ℚ) :=
  scores.map (fun p => if p.1 = d then (p.1, p.2 + x) else p)

/-- The score computation of `SearchEngine.search_by_tf_idf`: initialize every
    score of every stored document to `0`, then for every query word in order look up
    its lowercase form in the content index, skip missing words
    (`if not word_docs: continue`, which also skips an empty list), set
    `idf = lg(no_of_docs / (len(word_docs) + 1))` and add
    `count / doc_lengths[doc_id] * idf` to the document of each posting. -/
def SearchEngine.tf_idf_scores (lg : ℚ → ℚ) (e : SearchEngine) (query : List Char) :
    List (Nat × ℚ) :=
  let words := preprocessing query true
  let scores0 := e.documents.map (fun p => (p.1, (0 : ℚ)))
  words.foldl
    (fun scores word =>
      match e.indexer_content.lookup (lowerTok word) with
      | none => scores
      | some word_docs =>
        if word_docs.isEmpty then scores
        else
          let idf := lg ((e.no_of_docs : ℚ) / ((word_docs.length : ℚ) + 1))
          word_docs.foldl
            (fun sc item =>
              updScore sc item.doc_id
                (((item.count : ℚ) / (((assocFind e.doc_lengths item.doc_id).getD 0 : Nat) : ℚ))
                  * idf))
            scores)
    scores0

/-- Insert one scored document into an already-ranked list: it goes in front of
    the first element whose score is not greater than its own.  This is the
    stable descending order produced by the Python call
    `sorted(scores.items(), key=lambda x: x[1], reverse=True)` (the Python sort is
    stable, and `reverse=True` reverses comparisons while preserving stability;
    the scores dict iterates in ascending-document-id insertion order). -/
def insertRanked (x : Nat × ℚ) : List (Nat × ℚ) → List (Nat × ℚ)
  | [] => [x]
  | y :: ys => if x.2 < y.2 then y :: insertRanked x ys else x :: y :: ys

/-- Stable sort by score, descending (see `insertRanked`). -/
def sortByScoreDesc : List (Nat × ℚ) → List (Nat × ℚ)
  | [] => []
  | x :: xs => insertRanked x (sortByScoreDesc xs)

/-- The `ranked_results` list of `SearchEngine.search_by_tf_idf`. -/
def SearchEngine.ranked_results (lg : ℚ → ℚ) (e : SearchEngine) (query : List Char) :
    List (Nat × ℚ) :=
  sortByScoreDesc (e.tf_idf_scores lg query)

/-- Source `SearchEngine.search_by_tf_idf` composed with
    `get_ranked_results_format_string`: documents with score exactly `0` are
    skipped, the rest are rendered in ranked order with id, score, title and
    content. -/
def SearchEngine.search_by_tf_idf (lg : ℚ → ℚ) (e : SearchEngine) (query : List Char) :
    List (Nat × ℚ × (List Char × List Char)) :=
  ((e.ranked_results lg query).filter (fun p => !(decide (p.2 = 0)))).map
    (fun p => (p.1, p.2, (assocFind e.documents p.1).getD ([], [])))

/-- First posting of a list carrying this document id (the scan order the code
    itself uses in its merge loop). -/
def findPosting : List Posting → Nat → Option Posting
  | [], _ => none
  | q :: qs, d => if q.doc_id = d then some q else findPosting qs d

/-- The stored term count of a document inside a posting list (`0` when the
    document has no posting). -/
def postingCount (ps : List Posting) (d : Nat) : Nat :=
  ((findPosting ps d).map Posting.count).getD 0

/-- Bucket access used throughout: `self.table[index]`, with `None` as `[]`. -/
def tget (tbl : List Bucket) (i : Nat) : Bucket := tbl.getD i []

/-- The update `mergeIntoBucket` applies, phrased per entry. -/
def mergeUpd (key : Tok) (p : Posting) (e : Tok × List Posting) : Tok × List Posting :=
  if e.1 = key then (e.1, bumpPostings e.2 p) else e

/-- The reference model of `HashTable.insert` on a flat association list: the
    identical merge policy, without hashing or resizing. -/
def modelInsert (m : Bucket) (key : Tok) (value : List Posting) : Bucket :=
  match assocFind m key with
  | some _ =>
    match value.head? with
    | none => m
    | some p => mergeIntoBucket m key p
  | none => m ++ [(key, value)]

/-- The reference model of `HashTable.remove`. -/
def modelRemove (m : Bucket) (key : Tok) : Bucket :=
  match assocFind m key with
  | some _ => bucketRemove m key
  | none => m

/-- The coupling invariant between a reachable `HashTable` and its flat
    association-list model: positive capacity, table of the right length,
    duplicate-free keys, `count` equal to the number of entries, and every
    bucket the restriction of (a permutation of) the model to the keys hashing
    into it. -/
structure HTInv (ht : HashTable) (m : Bucket) : Prop where
  size_pos : 0 < ht.size
  len_eq : ht.table.length = ht.size
  nodup : (m.map Prod.fst).Nodup
  count_eq : ht.count = m.length
  buckets : ∃ m' : Bucket, m'.Perm m ∧
    ∀ i, tget ht.table i = m'.filter (fun e => decide (hashKey e.1 ht.size = i))

/-- Folding a sequence of inserts into the fresh table. -/
def foldInserts (ps : List (Tok × List Posting)) : HashTable :=
  ps.foldl (fun h kv => h.insert kv.1 kv.2) HashTable.empty

/-- Folding the same sequence into the flat model. -/
def foldModel (ps : List (Tok × List Posting)) (m0 : Bucket) : Bucket :=
  ps.foldl (fun m kv => modelInsert m kv.1 kv.2) m0

/-- Attach sequential ids starting at `n` (the `no_of_docs` numbering of the
    corpus). -/
def withIds {α : Type} : Nat → List α → List (Nat × α)
  | _, [] => []
  | n, x :: xs => (n, x) :: withIds (n + 1) xs

/-- The `(lowercased word, doc id)` insert stream the content of one document
    contributes to the content index. -/
def docInserts (d : Nat) (content : List Char) : List (Tok × Nat) :=
  (preprocessing content false).map (fun w => (lowerTok w, d))

/-- All content-index inserts of a corpus, in execution order. -/
def contentStream (docs : List (List Char × List Char)) : List (Tok × Nat) :=
  ((withIds 1 docs).map (fun p => docInserts p.1 p.2.2)).flatten

/-- The flat model built from an insert stream; each insert carries the
    singleton count-1 posting of `Indexer.add_document` for its doc id. -/
def streamModel (s : List (Tok × Nat)) (m0 : Bucket) : Bucket :=
  s.foldl (fun m kd => modelInsert m kd.1 [⟨kd.2, 1⟩]) m0

/-- The stored term count of `(key, d)` in a flat model. -/
def modelCount (m : Bucket) (key : Tok) (d : Nat) : Nat :=
  postingCount ((assocFind m key).getD []) d

/-- Number of inserts of exactly `(k, d)` in a stream. -/
def pairCount (s : List (Tok × Nat)) (k : Tok) (d : Nat) : Nat :=
  s.countP (fun e => decide (e.1 = k ∧ e.2 = d))

/-- Every posting list in the model has duplicate-free document ids. -/
def modelND (m : Bucket) : Prop :=
  ∀ e ∈ m, ((e.2.map Posting.doc_id).Nodup)

/-- The score of document `d` in the scores association list (`0` if absent). -/
def scoresVal (sc : List (Nat × ℚ)) (d : Nat) : ℚ := (assocFind sc d).getD 0

/-- Whether document `d` holds at least one query term of `query` in the
    content index (decidably phrased). -/
def containsQueryTerm (e : SearchEngine) (query : List Char) (d : Nat) : Bool :=
  (preprocessing query true).any (fun w =>
    match e.indexer_content.lookup (lowerTok w) with
    | some ps => (findPosting ps d).isSome
    | none => false)

/-- The per-term score contribution of the claim for document `d`:
    `(term_count / stored document length) * lg(total / (1 + document_frequency))`,
    applied to query terms found in the content index. -/
def claimTermScore (lg : ℚ → ℚ) (e : SearchEngine) (total : ℚ) (d : Nat) (w : Tok) : ℚ :=
  match e.indexer_content.lookup (lowerTok w) with
  | none => 0
  | some ps =>
    ((postingCount ps d : ℚ) / (((assocFind e.doc_lengths d).getD 0 : Nat) : ℚ))
      * lg (total / ((ps.length : ℚ) + 1))

/-- The score formula of the claim for document `d`: the sum of the per-term contributions
    over the normalized query, accumulated additively. -/
def claimScore (lg : ℚ → ℚ) (e : SearchEngine) (total : ℚ) (query : List Char) (d : Nat) : ℚ :=
  ((preprocessing query true).map (claimTermScore lg e total d)).sum

/-- The per-query-word step of the scoring loop of `search_by_tf_idf`. -/
def tfStep (lg : ℚ → ℚ) (e : SearchEngine) (scores : List (Nat × ℚ)) (word : Tok) :
    List (Nat × ℚ) :=
  match e.indexer_content.lookup (lowerTok word) with
  | none => scores
  | some word_docs =>
    if word_docs.isEmpty then scores
    else
      let idf := lg ((e.no_of_docs : ℚ) / ((word_docs.length : ℚ) + 1))
      word_docs.foldl
        (fun sc item =>
          updScore sc item.doc_id
            (((item.count : ℚ) / (((assocFind e.doc_lengths item.doc_id).getD 0 : Nat) : ℚ))
              * idf))
        scores

/-- What one query word adds to the score of document `d`. -/
def wordContrib (lg : ℚ → ℚ) (e : SearchEngine) (d : Nat) (word : Tok) : ℚ :=
  match e.indexer_content.lookup (lowerTok word) with
  | none => 0
  | some word_docs =>
    if word_docs.isEmpty then 0
    else
      ((word_docs.filter (fun item => decide (item.doc_id = d))).map
        (fun item =>
          ((item.count : ℚ) / (((assocFind e.doc_lengths item.doc_id).getD 0 : Nat) : ℚ))
            * lg ((e.no_of_docs : ℚ) / ((word_docs.length : ℚ) + 1)))).sum

/-- The ranking order of the claim: score strictly descending, ties by
    ascending document id. -/
def rankRel (a b : Nat × ℚ) : Prop := b.2 < a.2 ∨ (a.2 = b.2 ∧ a.1 < b.1)

/-- One hash-table operation, for arbitrary operation sequences. -/
inductive TOp where
  | ins (key : Tok) (value : List Posting) : TOp
  | rem (key : Tok) : TOp

/-- Run one operation on the table (`remove` returns its boolean separately;
    only the resulting table is threaded). -/
def applyOp (ht : HashTable) : TOp → HashTable
  | TOp.ins k v => ht.insert k v
  | TOp.rem k => (ht.remove k).2

/-- Run a sequence of operations on a fresh table. -/
def applyOps (ops : List TOp) : HashTable :=
  ops.foldl applyOp HashTable.empty

/-- Run one operation on the flat model. -/
def modelOp (m : Bucket) : TOp → Bucket
  | TOp.ins k v => modelInsert m k v
  | TOp.rem k => modelRemove m k

/-- Fact: `assocFind` misses exactly the keys not present. -/
theorem assocFind_eq_none {α β : Type} [DecidableEq α] (l : List (α × β)) (k : α) :
    assocFind l k = none ↔ k ∉ l.map Prod.fst := by
  induction l with
  | nil => simp [assocFind]
  | cons e rest ih =>
    obtain ⟨a, b⟩ := e
    by_cases h : a = k
    · subst h
      simp [assocFind]
    · simp [assocFind, h, ih, Ne.symm h]

/-- A successful `assocFind` returns a member pair. -/
theorem assocFind_mem {α β : Type} [DecidableEq α] {l : List (α × β)} {k : α} {v : β}
    (h : assocFind l k = some v) : (k, v) ∈ l := by
  induction l with
  | nil => simp [assocFind] at h
  | cons e rest ih =>
    obtain ⟨a, b⟩ := e
    by_cases hak : a = k
    · subst hak
      simp [assocFind] at h
      simp [h]
    · simp [assocFind, hak] at h
      exact List.mem_cons_of_mem _ (ih h)

/-- Under duplicate-free keys, membership determines `assocFind`. -/
theorem assocFind_eq_some_of_mem {α β : Type} [DecidableEq α] {l : List (α × β)} {k : α} {v : β}
    (nd : (l.map Prod.fst).Nodup) (hm : (k, v) ∈ l) : assocFind l k = some v := by
  induction l with
  | nil => simp at hm
  | cons e rest ih =>
    obtain ⟨a, b⟩ := e
    have nd2 : (∀ x : β, (a, x) ∉ rest) ∧ (rest.map Prod.fst).Nodup := by simpa using nd
    rcases List.mem_cons.1 hm with h | h
    · have h1 : k = a := congrArg Prod.fst h
      have h2 : v = b := congrArg Prod.snd h
      subst h1
      subst h2
      simp [assocFind]
    · have hak : a ≠ k := by
        rintro rfl
        exact nd2.1 v h
      simp [assocFind, hak]
      exact ih nd2.2 h

/-- Fact: `assocFind` is permutation-invariant on duplicate-free keys. -/
theorem assocFind_perm {α β : Type} [DecidableEq α] {l l' : List (α × β)}
    (h : l.Perm l') (nd : (l.map Prod.fst).Nodup) (k : α) :
    assocFind l k = assocFind l' k := by
  have nd' : (l'.map Prod.fst).Nodup := nd.perm (h.map Prod.fst)
  cases hf : assocFind l k with
  | none =>
    have := (assocFind_eq_none l k).1 hf
    have : k ∉ l'.map Prod.fst := fun hmem => this ((h.map Prod.fst).mem_iff.2 hmem)
    exact ((assocFind_eq_none l' k).2 this).symm
  | some v =>
    exact (assocFind_eq_some_of_mem nd' (h.mem_iff.1 (assocFind_mem hf))).symm

theorem assocFind_append_of_some {α β : Type} [DecidableEq α] {l1 : List (α × β)} {k : α} {v : β}
    (l2 : List (α × β)) (h : assocFind l1 k = some v) : assocFind (l1 ++ l2) k = some v := by
  induction l1 with
  | nil => simp [assocFind] at h
  | cons e rest ih =>
    obtain ⟨a, b⟩ := e
    by_cases hak : a = k
    · subst hak
      simp [assocFind] at h ⊢
      exact h
    · simp [assocFind, hak] at h ⊢
      exact ih h

theorem assocFind_append_of_none {α β : Type} [DecidableEq α] {l1 : List (α × β)} {k : α}
    (l2 : List (α × β)) (h : assocFind l1 k = none) : assocFind (l1 ++ l2) k = assocFind l2 k := by
  induction l1 with
  | nil => simp
  | cons e rest ih =>
    obtain ⟨a, b⟩ := e
    by_cases hak : a = k
    · subst hak
      simp [assocFind] at h
    · simp [assocFind, hak] at h ⊢
      exact ih h

/-- Filtering by a predicate that holds on every pair keyed `k` does not change
    the first `k`-match. -/
theorem assocFind_filter {α β : Type} [DecidableEq α] {p : α × β → Bool} (l : List (α × β))
    (k : α) (hp : ∀ e ∈ l, e.1 = k → p e = true) : assocFind (l.filter p) k = assocFind l k := by
  induction l with
  | nil => simp
  | cons e rest ih =>
    obtain ⟨a, b⟩ := e
    by_cases hak : a = k
    · subst hak
      rw [List.filter_cons_of_pos (hp _ (List.mem_cons_self _ _) rfl)]
      simp [assocFind]
    · have ih' := ih (fun e he hk => hp e (List.mem_cons_of_mem _ he) hk)
      by_cases hpe : p (a, b)
      · rw [List.filter_cons_of_pos hpe]
        simp [assocFind, hak, ih']
      · rw [List.filter_cons_of_neg (by simpa using hpe)]
        simp [assocFind, hak, ih']

theorem tget_set_self {tbl : List Bucket} {i : Nat} {b : Bucket} (h : i < tbl.length) :
    tget (tbl.set i b) i = b := by
  simp [tget, List.getD_eq_getElem?_getD, List.getElem?_set, h]

theorem tget_set_ne {tbl : List Bucket} {i j : Nat} {b : Bucket} (h : i ≠ j) :
    tget (tbl.set i b) j = tget tbl j := by
  simp [tget, List.getD_eq_getElem?_getD, List.getElem?_set, h]

theorem tget_replicate (n i : Nat) : tget (List.replicate n ([] : Bucket)) i = [] := by
  rcases Nat.lt_or_ge i n with h | h
  · simp [tget, List.getD_eq_getElem?_getD, List.getElem?_replicate, h]
  · simp [tget, List.getD_eq_getElem?_getD, List.getElem?_replicate, Nat.not_lt.2 h]

/-- The rolling hash lands strictly below any positive capacity. -/
theorem hashKey_lt (k : Tok) {size : Nat} (h : 0 < size) : hashKey k size < size := by
  have aux : ∀ (cs : List Char) (acc : Nat), acc < size →
      cs.foldl (fun h c => (h * 31 + c.toNat) % size) acc < size := by
    intro cs
    induction cs with
    | nil => intro acc hacc; simpa using hacc
    | cons c cs ih => intro acc hacc; exact ih _ (Nat.mod_lt _ h)
  cases k with
  | nil => simpa [hashKey] using h
  | cons c cs =>
    simpa [hashKey] using aux cs ((0 * 31 + c.toNat) % size) (Nat.mod_lt _ h)

theorem mergeIntoBucket_map_fst (l : Bucket) (key : Tok) (p : Posting) :
    (mergeIntoBucket l key p).map Prod.fst = l.map Prod.fst := by
  induction l with
  | nil => rfl
  | cons e rest ih =>
    obtain ⟨k, ps⟩ := e
    by_cases h : k = key <;> simp [mergeIntoBucket, h, ih]

theorem mergeIntoBucket_length (l : Bucket) (key : Tok) (p : Posting) :
    (mergeIntoBucket l key p).length = l.length := by
  have := congrArg List.length (mergeIntoBucket_map_fst l key p)
  simpa using this

theorem map_mergeUpd_id {l : Bucket} {key : Tok} {p : Posting}
    (h : ∀ e ∈ l, e.1 ≠ key) : l.map (mergeUpd key p) = l := by
  have h' : ∀ e ∈ l, mergeUpd key p e = id e := by
    intro e he
    simp [mergeUpd, h e he]
  rw [List.map_congr_left h', List.map_id]

theorem mergeIntoBucket_eq_map {l : Bucket} {key : Tok} {p : Posting}
    (nd : (l.map Prod.fst).Nodup) : mergeIntoBucket l key p = l.map (mergeUpd key p) := by
  induction l with
  | nil => rfl
  | cons e rest ih =>
    obtain ⟨k, ps⟩ := e
    have nd2 : (∀ x : List Posting, (k, x) ∉ rest) ∧ (rest.map Prod.fst).Nodup := by simpa using nd
    by_cases h : k = key
    · subst h
      have hrest : ∀ e ∈ rest, e.1 ≠ k := by
        intro e he heq
        exact nd2.1 e.2 (by rw [← heq, Prod.mk.eta]; exact he)
      simp [mergeIntoBucket, mergeUpd]
      exact (map_mergeUpd_id hrest).symm
    · simp [mergeIntoBucket, mergeUpd, h, ih nd2.2]

theorem filter_map_mergeUpd {key : Tok} {p : Posting} (pr : Tok × List Posting → Bool)
    (hp : ∀ e, pr (mergeUpd key p e) = pr e) (l : Bucket) :
    (l.map (mergeUpd key p)).filter pr = (l.filter pr).map (mergeUpd key p) := by
  rw [List.filter_map]
  congr 1
  exact List.filter_congr (fun e _ => hp e)

/-- Merging a fresh singleton posting bumps the stored count of exactly
    the merged document by one. -/
theorem bumpPostings_postingCount (ps : List Posting) (d0 d : Nat) :
    postingCount (bumpPostings ps ⟨d0, 1⟩) d
      = postingCount ps d + (if d = d0 then 1 else 0) := by
  induction ps with
  | nil =>
    by_cases h : d = d0
    · subst h
      simp [bumpPostings, postingCount, findPosting]
    · have h' : ¬ d0 = d := fun hh => h hh.symm
      simp [bumpPostings, postingCount, findPosting, h, h']
  | cons q qs ih =>
    by_cases h : q.doc_id = d0
    · by_cases hd : d = d0
      · subst hd
        simp [bumpPostings, postingCount, findPosting, h]
      · have h1 : ¬ q.doc_id = d := by omega
        have h2 : ¬ d0 = d := by omega
        simp [bumpPostings, postingCount, findPosting, h, h1, h2, hd]
    · by_cases hq : q.doc_id = d
      · have hd : ¬ d = d0 := by omega
        simp [bumpPostings, postingCount, findPosting, h, hq, hd]
      · simpa [bumpPostings, postingCount, findPosting, h, hq] using ih

theorem bumpPostings_map_docid (ps : List Posting) (p : Posting) :
    (bumpPostings ps p).map Posting.doc_id
      = if p.doc_id ∈ ps.map Posting.doc_id then ps.map Posting.doc_id
        else ps.map Posting.doc_id ++ [p.doc_id] := by
  induction ps with
  | nil => simp [bumpPostings]
  | cons q qs ih =>
    by_cases h : q.doc_id = p.doc_id
    · simp [bumpPostings, h]
    · have h' : ¬ p.doc_id = q.doc_id := fun hh => h hh.symm
      by_cases hm : p.doc_id ∈ qs.map Posting.doc_id
      · simp [bumpPostings, h, ih, hm, h']
      · simp [bumpPostings, h, ih, hm, h']

theorem bumpPostings_nodup_docid {ps : List Posting} {p : Posting}
    (nd : (ps.map Posting.doc_id).Nodup) : ((bumpPostings ps p).map Posting.doc_id).Nodup := by
  rw [bumpPostings_map_docid]
  by_cases hm : p.doc_id ∈ ps.map Posting.doc_id
  · simpa [hm] using nd
  · rw [if_neg hm, List.nodup_append]
    refine ⟨nd, List.nodup_singleton _, ?_⟩
    intro a ha hb
    rw [List.mem_singleton] at hb
    subst hb
    exact hm ha

theorem mem_bumpPostings {ps : List Posting} {p q : Posting} (h : q ∈ bumpPostings ps p) :
    (∃ q0 ∈ ps, q0.doc_id = q.doc_id) ∨ q = p := by
  induction ps with
  | nil =>
    right
    simpa [bumpPostings] using h
  | cons r rs ih =>
    by_cases hr : r.doc_id = p.doc_id
    · simp only [bumpPostings, if_pos hr] at h
      rcases List.mem_cons.1 h with h1 | h1
      · exact Or.inl ⟨r, List.mem_cons_self _ _, by rw [h1]⟩
      · exact Or.inl ⟨q, List.mem_cons_of_mem _ h1, rfl⟩
    · simp only [bumpPostings, if_neg hr] at h
      rcases List.mem_cons.1 h with h1 | h1
      · exact Or.inl ⟨r, List.mem_cons_self _ _, by rw [h1]⟩
      · rcases ih h1 with ⟨q0, hq0, hid⟩ | h2
        · exact Or.inl ⟨q0, List.mem_cons_of_mem _ hq0, hid⟩
        · exact Or.inr h2

theorem bucketRemove_eq_filter {l : Bucket} (key : Tok) (nd : (l.map Prod.fst).Nodup) :
    bucketRemove l key = l.filter (fun e => !(decide (e.1 = key))) := by
  induction l with
  | nil => rfl
  | cons e rest ih =>
    obtain ⟨k, ps⟩ := e
    have nd2 : (∀ x : List Posting, (k, x) ∉ rest) ∧ (rest.map Prod.fst).Nodup := by simpa using nd
    by_cases h : k = key
    · subst h
      have hrest : ∀ e ∈ rest, (fun e : Tok × List Posting => !(decide (e.1 = k))) e = true := by
        intro e he
        have : e.1 ≠ k := fun heq => nd2.1 e.2 (by rw [← heq, Prod.mk.eta]; exact he)
        simpa using this
      simp [bucketRemove, (List.filter_eq_self).2 hrest]
    · simp [bucketRemove, h, ih nd2.2]

theorem bucketRemove_length {l : Bucket} {key : Tok}
    (h : key ∈ l.map Prod.fst) : (bucketRemove l key).length + 1 = l.length := by
  induction l with
  | nil => simp at h
  | cons e rest ih =>
    obtain ⟨k, ps⟩ := e
    by_cases hk : k = key
    · simp [bucketRemove, hk]
    · have hmem : key ∈ rest.map Prod.fst := by
        rcases by simpa using h with h1 | h1
        · exact absurd h1.symm hk
        · simpa using h1
      have h2 := ih hmem
      simp only [bucketRemove, if_neg hk, List.length_cons]
      omega

theorem mergeUpd_fst (key : Tok) (p : Posting) (e : Tok × List Posting) :
    (mergeUpd key p e).1 = e.1 := by
  unfold mergeUpd
  split <;> rfl

theorem foldl_pushPair_length (ns : Nat) (ps : List (Tok × List Posting)) :
    ∀ (T : List Bucket), (ps.foldl (pushPair ns) T).length = T.length := by
  induction ps with
  | nil => intro T; rfl
  | cons e rest ih =>
    intro T
    rw [List.foldl_cons, ih]
    simp [pushPair]

theorem tget_pushPair_self {ns : Nat} {T : List Bucket} (hns : 0 < ns) (hT : T.length = ns)
    (e : Tok × List Posting) :
    tget (pushPair ns T e) (hashKey e.1 ns) = tget T (hashKey e.1 ns) ++ [e] := by
  have h := @tget_set_self T (hashKey e.1 ns)
    (T.getD (hashKey e.1 ns) [] ++ [e]) (by rw [hT]; exact hashKey_lt _ hns)
  simpa [pushPair, tget] using h

theorem tget_pushPair_ne {ns i : Nat} {T : List Bucket} {e : Tok × List Posting}
    (hne : hashKey e.1 ns ≠ i) : tget (pushPair ns T e) i = tget T i := by
  simpa [pushPair, tget] using
    @tget_set_ne T (hashKey e.1 ns) i (T.getD (hashKey e.1 ns) [] ++ [e]) hne

/-- The rehash fold of `_resize` distributes the pairs into the bucket of their
    new hash, in traversal order. -/
theorem foldl_pushPair_tget (ns : Nat) (hns : 0 < ns) (ps : List (Tok × List Posting)) :
    ∀ (T : List Bucket), T.length = ns → ∀ i,
      tget (ps.foldl (pushPair ns) T) i
        = tget T i ++ ps.filter (fun e => decide (hashKey e.1 ns = i)) := by
  induction ps with
  | nil => intro T _ i; simp
  | cons e rest ih =>
    intro T hT i
    rw [List.foldl_cons]
    have hlen : (pushPair ns T e).length = ns := by simp [pushPair, hT]
    rw [ih (pushPair ns T e) hlen i]
    by_cases hi : hashKey e.1 ns = i
    · subst hi
      rw [List.filter_cons_of_pos (by simp), tget_pushPair_self hns hT, List.append_assoc]
      rfl
    · rw [List.filter_cons_of_neg (by simpa using hi), tget_pushPair_ne hi]

theorem sum_map_range_single {k c : Nat} (n : Nat) (h : k < n) :
    ((List.range n).map (fun i => if k = i then c else 0)).sum = c := by
  induction n with
  | zero => omega
  | succ m ih =>
    rw [List.range_succ, List.map_append, List.sum_append]
    by_cases hk : k = m
    · subst hk
      have hz : ((List.range k).map (fun i => if k = i then c else 0)).sum = 0 := by
        apply List.sum_eq_zero
        intro x hx
        rcases List.mem_map.1 hx with ⟨i, hi, rfl⟩
        have : i < k := List.mem_range.1 hi
        simp [Nat.ne_of_gt this]
      simp [hz]
    · have hk' : k < m := by omega
      simp [ih hk', hk]

/-- Splitting a list into the fibers of a bucket function and flattening gives a
    permutation of the list. -/
theorem count_partition {α : Type} [DecidableEq α] (l : List α) (f : α → Nat) (n : Nat)
    (hf : ∀ a ∈ l, f a < n) :
    (((List.range n).map (fun i => l.filter (fun a => decide (f a = i)))).flatten).Perm l := by
  rw [List.perm_iff_count]
  intro b
  rw [List.count_flatten, List.map_map]
  by_cases hb : b ∈ l
  · have hcnt : ∀ i, List.count b (l.filter (fun a => decide (f a = i)))
        = if f b = i then List.count b l else 0 := by
      intro i
      by_cases hi : f b = i
      · rw [if_pos hi]
        exact List.count_filter (by simpa using hi)
      · rw [if_neg hi]
        refine List.count_eq_zero.2 (fun hmem => hi ?_)
        simpa using (List.mem_filter.1 hmem).2
    have hmc : (List.range n).map ((List.count b) ∘ (fun i => l.filter (fun a => decide (f a = i))))
        = (List.range n).map (fun i => if f b = i then List.count b l else 0) :=
      List.map_congr_left (fun i _ => hcnt i)
    rw [hmc, sum_map_range_single n (hf b hb)]
  · have hz : ∀ i, List.count b (l.filter (fun a => decide (f a = i))) = 0 := by
      intro i
      exact List.count_eq_zero.2 (fun hmem => hb (List.mem_of_mem_filter hmem))
    rw [List.count_eq_zero_of_not_mem hb]
    apply List.sum_eq_zero
    intro x hx
    rcases List.mem_map.1 hx with ⟨i, _, rfl⟩
    exact hz i

theorem tget_cons_succ (b : Bucket) (T : List Bucket) (i : Nat) :
    tget (b :: T) (i + 1) = tget T i := rfl

theorem flatten_eq_range_tget : ∀ (T : List Bucket),
    T.flatten = ((List.range T.length).map (fun i => tget T i)).flatten := by
  intro T
  induction T with
  | nil => rfl
  | cons b T ih =>
    rw [List.length_cons, List.range_succ_eq_map, List.map_cons, List.map_map]
    have hmap : (List.range T.length).map ((fun i => tget (b :: T) i) ∘ Nat.succ)
        = (List.range T.length).map (fun i => tget T i) :=
      List.map_congr_left (fun i _ => tget_cons_succ b T i)
    rw [hmap, List.flatten_cons]
    show b ++ T.flatten = tget (b :: T) 0 ++ _
    rw [← ih]
    rfl

/-- Under the invariant, `lookup` agrees with the flat model. -/
theorem htinv_lookup {ht : HashTable} {m : Bucket} (inv : HTInv ht m) (k : Tok) :
    ht.lookup k = assocFind m k := by
  obtain ⟨m', hperm, hbuck⟩ := inv.buckets
  have nd' : (m'.map Prod.fst).Nodup := inv.nodup.perm (hperm.map Prod.fst).symm
  show assocFind (ht.table.getD (hashKey k ht.size) []) k = assocFind m k
  rw [show ht.table.getD (hashKey k ht.size) [] = tget ht.table (hashKey k ht.size) from rfl,
    hbuck]
  rw [assocFind_filter _ _ (fun e _ hek => by simp [hek])]
  exact assocFind_perm hperm nd' k

/-- Resizing preserves the invariant (the model is untouched). -/
theorem htinv_resize {ht : HashTable} {m : Bucket} (inv : HTInv ht m) :
    HTInv ht.resize m := by
  obtain ⟨m', hperm, hbuck⟩ := inv.buckets
  have hsz : 0 < ht.size * 2 := by have := inv.size_pos; omega
  have hflat : ht.table.flatten.Perm m' := by
    rw [flatten_eq_range_tget, inv.len_eq]
    have hmap : (List.range ht.size).map (fun i => tget ht.table i)
        = (List.range ht.size).map
            (fun i => m'.filter (fun e => decide (hashKey e.1 ht.size = i))) :=
      List.map_congr_left (fun i _ => hbuck i)
    rw [hmap]
    exact count_partition m' (fun e => hashKey e.1 ht.size) ht.size
      (fun e _ => hashKey_lt _ inv.size_pos)
  refine ⟨hsz, ?_, inv.nodup, inv.count_eq, ⟨ht.table.flatten, hflat.trans hperm, ?_⟩⟩
  · show (ht.table.flatten.foldl (pushPair (ht.size * 2)) (List.replicate (ht.size * 2) [])).length
      = ht.size * 2
    rw [foldl_pushPair_length]
    simp
  · intro i
    show tget (ht.table.flatten.foldl (pushPair (ht.size * 2))
        (List.replicate (ht.size * 2) [])) i = _
    rw [foldl_pushPair_tget (ht.size * 2) hsz _ _ (by simp) i, tget_replicate]
    rfl

/-- Fact: `insert` preserves the invariant, tracking the flat-model insert. -/
theorem htinv_insert {ht : HashTable} {m : Bucket} (inv : HTInv ht m) (key : Tok)
    (value : List Posting) : HTInv (ht.insert key value) (modelInsert m key value) := by
  obtain ⟨m', hperm, hbuck⟩ := inv.buckets
  have nd' : (m'.map Prod.fst).Nodup := inv.nodup.perm (hperm.map Prod.fst).symm
  have hidx : hashKey key ht.size < ht.table.length := by
    rw [inv.len_eq]
    exact hashKey_lt _ inv.size_pos
  have hlk : assocFind (ht.table.getD (hashKey key ht.size) []) key = assocFind m key :=
    htinv_lookup inv key
  cases hf : assocFind (ht.table.getD (hashKey key ht.size) []) key with
  | some v0 =>
    have hfm : assocFind m key = some v0 := by rw [← hlk]; exact hf
    cases hv : value.head? with
    | none =>
      have h1 : ht.insert key value = ht := by
        simp only [HashTable.insert]
        rw [hf, hv]
      have h2 : modelInsert m key value = m := by
        simp only [modelInsert]
        rw [hfm, hv]
      rw [h1, h2]
      exact ⟨inv.size_pos, inv.len_eq, inv.nodup, inv.count_eq, ⟨m', hperm, hbuck⟩⟩
    | some p =>
      have h1 : ht.insert key value =
          { table := ht.table.set (hashKey key ht.size)
              (mergeIntoBucket (ht.table.getD (hashKey key ht.size) []) key p),
            size := ht.size, count := ht.count } := by
        simp only [HashTable.insert]
        rw [hf, hv]
      have h2 : modelInsert m key value = mergeIntoBucket m key p := by
        simp only [modelInsert]
        rw [hfm, hv]
      rw [h1, h2]
      have ndb : ((m'.filter
          (fun e => decide (hashKey e.1 ht.size = hashKey key ht.size))).map Prod.fst).Nodup :=
        List.Nodup.sublist ((List.filter_sublist m').map Prod.fst) nd'
      refine ⟨inv.size_pos, by simpa using inv.len_eq, ?_, ?_, ?_⟩
      · rw [mergeIntoBucket_map_fst]
        exact inv.nodup
      · rw [mergeIntoBucket_length]
        exact inv.count_eq
      · refine ⟨m'.map (mergeUpd key p), ?_, ?_⟩
        · rw [mergeIntoBucket_eq_map inv.nodup]
          exact hperm.map _
        · intro i
          by_cases hi : i = hashKey key ht.size
          · subst hi
            rw [show tget (ht.table.set (hashKey key ht.size)
                (mergeIntoBucket (ht.table.getD (hashKey key ht.size) []) key p))
                (hashKey key ht.size)
              = mergeIntoBucket (ht.table.getD (hashKey key ht.size) []) key p
              from tget_set_self hidx]
            rw [show ht.table.getD (hashKey key ht.size) []
                = tget ht.table (hashKey key ht.size) from rfl, hbuck, mergeIntoBucket_eq_map ndb]
            exact (filter_map_mergeUpd _ (fun e => by rw [mergeUpd_fst]) m').symm
          · rw [show tget (ht.table.set (hashKey key ht.size)
                (mergeIntoBucket (ht.table.getD (hashKey key ht.size) []) key p)) i
              = tget ht.table i from tget_set_ne (fun h => hi h.symm)]
            rw [hbuck i, filter_map_mergeUpd _ (fun e => by rw [mergeUpd_fst]) m']
            refine (map_mergeUpd_id ?_).symm
            intro e he heq
            have hmf := (List.mem_filter.1 he).2
            rw [heq] at hmf
            have h3 : hashKey key ht.size = i := by simpa using hmf
            exact hi h3.symm
  | none =>
    have hfm : assocFind m key = none := by rw [← hlk]; exact hf
    have hkey_not : key ∉ m.map Prod.fst := (assocFind_eq_none m key).1 hfm
    have h2 : modelInsert m key value = m ++ [(key, value)] := by
      simp only [modelInsert]
      rw [hfm]
    have hbase : HTInv
        { table := ht.table.set (hashKey key ht.size)
            ((ht.table.getD (hashKey key ht.size) []) ++ [(key, value)]),
          size := ht.size, count := ht.count + 1 } (m ++ [(key, value)]) := by
      refine ⟨inv.size_pos, by simpa using inv.len_eq, ?_, by simpa using inv.count_eq, ?_⟩
      · rw [List.map_append, List.nodup_append]
        refine ⟨inv.nodup, by simp, ?_⟩
        intro a ha hb
        rw [show (([(key, value)] : Bucket).map Prod.fst) = [key] from rfl,
          List.mem_singleton] at hb
        subst hb
        exact hkey_not ha
      · refine ⟨m' ++ [(key, value)], hperm.append_right _, ?_⟩
        intro i
        by_cases hi : i = hashKey key ht.size
        · subst hi
          rw [show tget (ht.table.set (hashKey key ht.size)
              ((ht.table.getD (hashKey key ht.size) []) ++ [(key, value)]))
              (hashKey key ht.size)
            = (ht.table.getD (hashKey key ht.size) []) ++ [(key, value)]
            from tget_set_self hidx]
          rw [List.filter_append,
            show ht.table.getD (hashKey key ht.size) []
              = tget ht.table (hashKey key ht.size) from rfl, hbuck]
          congr 1
          simp
        · rw [show tget (ht.table.set (hashKey key ht.size)
              ((ht.table.getD (hashKey key ht.size) []) ++ [(key, value)])) i
            = tget ht.table i from tget_set_ne (fun h => hi h.symm)]
          rw [hbuck i, List.filter_append]
          have : ([(key, value)] : Bucket).filter
              (fun e => decide (hashKey e.1 ht.size = i)) = [] := by
            simp only [List.filter_cons, List.filter_nil]
            rw [if_neg (by simpa using fun h => hi h.symm)]
          rw [this, List.append_nil]
    have h1 : ht.insert key value =
        if 7 * ht.size < 10 * (ht.count + 1) then
          HashTable.resize
            { table := ht.table.set (hashKey key ht.size)
                ((ht.table.getD (hashKey key ht.size) []) ++ [(key, value)]),
              size := ht.size, count := ht.count + 1 }
        else
          { table := ht.table.set (hashKey key ht.size)
              ((ht.table.getD (hashKey key ht.size) []) ++ [(key, value)]),
            size := ht.size, count := ht.count + 1 } := by
      simp only [HashTable.insert]
      rw [hf]
    rw [h1, h2]
    split
    · exact htinv_resize hbase
    · exact hbase

/-- Fact: `remove` preserves the invariant, tracking the flat-model remove. -/
theorem htinv_remove {ht : HashTable} {m : Bucket} (inv : HTInv ht m) (key : Tok) :
    HTInv (ht.remove key).2 (modelRemove m key) := by
  obtain ⟨m', hperm, hbuck⟩ := inv.buckets
  have nd' : (m'.map Prod.fst).Nodup := inv.nodup.perm (hperm.map Prod.fst).symm
  have hidx : hashKey key ht.size < ht.table.length := by
    rw [inv.len_eq]
    exact hashKey_lt _ inv.size_pos
  have hlk : assocFind (ht.table.getD (hashKey key ht.size) []) key = assocFind m key :=
    htinv_lookup inv key
  cases hf : assocFind (ht.table.getD (hashKey key ht.size) []) key with
  | some v0 =>
    have hfm : assocFind m key = some v0 := by rw [← hlk]; exact hf
    have hkey_mem : key ∈ m.map Prod.fst :=
      List.mem_map.2 ⟨(key, v0), assocFind_mem hfm, rfl⟩
    have h1 : (ht.remove key).2 =
        { table := ht.table.set (hashKey key ht.size)
            (bucketRemove (ht.table.getD (hashKey key ht.size) []) key),
          size := ht.size, count := ht.count - 1 } := by
      simp only [HashTable.remove]
      rw [hf]
    have h2 : modelRemove m key = bucketRemove m key := by
      simp only [modelRemove]
      rw [hfm]
    rw [h1, h2]
    have ndb : ((m'.filter
        (fun e => decide (hashKey e.1 ht.size = hashKey key ht.size))).map Prod.fst).Nodup :=
      List.Nodup.sublist ((List.filter_sublist m').map Prod.fst) nd'
    refine ⟨inv.size_pos, by simpa using inv.len_eq, ?_, ?_, ?_⟩
    · rw [bucketRemove_eq_filter key inv.nodup]
      exact List.Nodup.sublist ((List.filter_sublist m).map Prod.fst) inv.nodup
    · have hbr := bucketRemove_length hkey_mem
      have hce := inv.count_eq
      show ht.count - 1 = (bucketRemove m key).length
      omega
    · refine ⟨m'.filter (fun e => !(decide (e.1 = key))), ?_, ?_⟩
      · rw [bucketRemove_eq_filter key inv.nodup]
        exact hperm.filter _
      · intro i
        by_cases hi : i = hashKey key ht.size
        · subst hi
          rw [show tget (ht.table.set (hashKey key ht.size)
              (bucketRemove (ht.table.getD (hashKey key ht.size) []) key))
              (hashKey key ht.size)
            = bucketRemove (ht.table.getD (hashKey key ht.size) []) key
            from tget_set_self hidx]
          rw [show ht.table.getD (hashKey key ht.size) []
              = tget ht.table (hashKey key ht.size) from rfl, hbuck,
            bucketRemove_eq_filter key ndb, List.filter_comm]
        · rw [show tget (ht.table.set (hashKey key ht.size)
              (bucketRemove (ht.table.getD (hashKey key ht.size) []) key)) i
            = tget ht.table i from tget_set_ne (fun h => hi h.symm)]
          rw [hbuck i, List.filter_comm]
          refine (List.filter_eq_self.2 ?_).symm
          intro e he
          have := (List.mem_filter.1 he).2
          have hek : e.1 ≠ key := by
            intro heq
            rw [heq] at this
            have h3 : hashKey key ht.size = i := by simpa using this
            exact hi h3.symm
          simpa using hek
  | none =>
    have hfm : assocFind m key = none := by rw [← hlk]; exact hf
    have h1 : (ht.remove key).2 = ht := by
      simp only [HashTable.remove]
      rw [hf]
    have h2 : modelRemove m key = m := by
      simp only [modelRemove]
      rw [hfm]
    rw [h1, h2]
    exact ⟨inv.size_pos, inv.len_eq, inv.nodup, inv.count_eq, ⟨m', hperm, hbuck⟩⟩

/-- The fresh table satisfies the invariant with the empty model. -/
theorem htinv_empty : HTInv HashTable.empty [] := by
  refine ⟨by decide, by simp [HashTable.empty], by simp, rfl, ⟨[], List.Perm.refl _, ?_⟩⟩
  intro i
  show tget (List.replicate 16 []) i = _
  rw [tget_replicate]
  rfl

/-- One insert keeps the capacity at least 16 and the load factor at most 0.7:
    if the threshold is crossed, the capacity has doubled before the call
    returns. -/
theorem insert_eq_of_absent {ht : HashTable} {key : Tok} (value : List Posting)
    (hf : assocFind (ht.table.getD (hashKey key ht.size) []) key = none) :
    ht.insert key value =
      if 7 * ht.size < 10 * (ht.count + 1) then
        HashTable.resize
          { table := ht.table.set (hashKey key ht.size)
              ((ht.table.getD (hashKey key ht.size) []) ++ [(key, value)]),
            size := ht.size, count := ht.count + 1 }
      else
        { table := ht.table.set (hashKey key ht.size)
            ((ht.table.getD (hashKey key ht.size) []) ++ [(key, value)]),
          size := ht.size, count := ht.count + 1 } := by
  simp only [HashTable.insert]
  rw [hf]

theorem insert_load {ht : HashTable} (h16 : 16 ≤ ht.size) (hl : 10 * ht.count ≤ 7 * ht.size)
    (key : Tok) (value : List Posting) :
    16 ≤ (ht.insert key value).size ∧
      10 * (ht.insert key value).count ≤ 7 * (ht.insert key value).size := by
  cases hf : assocFind (ht.table.getD (hashKey key ht.size) []) key with
  | some v0 =>
    cases hv : value.head? with
    | none =>
      have h1 : ht.insert key value = ht := by
        simp only [HashTable.insert]
        rw [hf, hv]
      rw [h1]
      exact ⟨h16, hl⟩
    | some p =>
      have h1 : ht.insert key value =
          { table := ht.table.set (hashKey key ht.size)
              (mergeIntoBucket (ht.table.getD (hashKey key ht.size) []) key p),
            size := ht.size, count := ht.count } := by
        simp only [HashTable.insert]
        rw [hf, hv]
      rw [h1]
      exact ⟨h16, hl⟩
  | none =>
    rw [insert_eq_of_absent value hf]
    by_cases hc : 7 * ht.size < 10 * (ht.count + 1)
    · rw [if_pos hc]
      refine ⟨?_, ?_⟩
      · show 16 ≤ ht.size * 2
        omega
      · show 10 * (ht.count + 1) ≤ 7 * (ht.size * 2)
        omega
    · rw [if_neg hc]
      refine ⟨h16, ?_⟩
      show 10 * (ht.count + 1) ≤ 7 * ht.size
      omega

theorem foldInserts_load (ps : List (Tok × List Posting)) :
    16 ≤ (foldInserts ps).size ∧ 10 * (foldInserts ps).count ≤ 7 * (foldInserts ps).size := by
  suffices h : ∀ (ht : HashTable), 16 ≤ ht.size → 10 * ht.count ≤ 7 * ht.size →
      16 ≤ (ps.foldl (fun h kv => h.insert kv.1 kv.2) ht).size ∧
        10 * (ps.foldl (fun h kv => h.insert kv.1 kv.2) ht).count ≤
          7 * (ps.foldl (fun h kv => h.insert kv.1 kv.2) ht).size by
    exact h HashTable.empty (by decide) (by decide)
  induction ps with
  | nil => intro ht h1 h2; exact ⟨h1, h2⟩
  | cons kv rest ih =>
    intro ht h1 h2
    rw [List.foldl_cons]
    exact ih _ (insert_load h1 h2 kv.1 kv.2).1 (insert_load h1 h2 kv.1 kv.2).2

theorem htinv_foldInserts (ps : List (Tok × List Posting)) :
    HTInv (foldInserts ps) (foldModel ps []) := by
  suffices h : ∀ (ht : HashTable) (m : Bucket), HTInv ht m →
      HTInv (ps.foldl (fun h kv => h.insert kv.1 kv.2) ht)
        (ps.foldl (fun m kv => modelInsert m kv.1 kv.2) m) by
    exact h HashTable.empty [] htinv_empty
  induction ps with
  | nil => intro ht m inv; exact inv
  | cons kv rest ih =>
    intro ht m inv
    rw [List.foldl_cons, List.foldl_cons]
    exact ih _ _ (htinv_insert inv kv.1 kv.2)

/-- With pairwise-distinct keys no merge ever fires, so the flat model is the
    insert sequence itself. -/
theorem foldModel_fresh : ∀ (ps : List (Tok × List Posting)) (m0 : Bucket),
    (m0.map Prod.fst ++ ps.map Prod.fst).Nodup →
    ps.foldl (fun m kv => modelInsert m kv.1 kv.2) m0 = m0 ++ ps := by
  intro ps
  induction ps with
  | nil => intro m0 _; simp
  | cons kv rest ih =>
    intro m0 h
    have hk_not : kv.1 ∉ m0.map Prod.fst := by
      intro hmem
      exact (List.nodup_append.1 h).2.2 hmem (by simp)
    rw [List.foldl_cons]
    have hstep : modelInsert m0 kv.1 kv.2 = m0 ++ [kv] := by
      simp only [modelInsert]
      rw [(assocFind_eq_none _ _).2 hk_not, Prod.mk.eta]
    rw [hstep, ih (m0 ++ [kv]) (by
      rw [List.map_append, List.append_assoc]
      simpa using h), List.append_assoc]
    rfl

/-- All table entries, in bucket order, are a permutation of the model. -/
theorem htinv_flatten {ht : HashTable} {m : Bucket} (inv : HTInv ht m) :
    ht.table.flatten.Perm m := by
  obtain ⟨m', hperm, hbuck⟩ := inv.buckets
  have hflat : ht.table.flatten.Perm m' := by
    rw [flatten_eq_range_tget, inv.len_eq]
    have hmap : (List.range ht.size).map (fun i => tget ht.table i)
        = (List.range ht.size).map
            (fun i => m'.filter (fun e => decide (hashKey e.1 ht.size = i))) :=
      List.map_congr_left (fun i _ => hbuck i)
    rw [hmap]
    exact count_partition m' (fun e => hashKey e.1 ht.size) ht.size
      (fun e _ => hashKey_lt _ inv.size_pos)
  exact hflat.trans hperm

/-- Inserting a key already present merges and leaves `count` unchanged. -/
theorem insert_count_merge {ht : HashTable} {key : Tok} (value : List Posting)
    (h : ht.lookup key ≠ none) : (ht.insert key value).count = ht.count := by
  cases hf : assocFind (ht.table.getD (hashKey key ht.size) []) key with
  | none => exact absurd hf h
  | some v0 =>
    cases hv : value.head? with
    | none =>
      have h1 : ht.insert key value = ht := by
        simp only [HashTable.insert]
        rw [hf, hv]
      rw [h1]
    | some p =>
      have h1 : ht.insert key value =
          { table := ht.table.set (hashKey key ht.size)
              (mergeIntoBucket (ht.table.getD (hashKey key ht.size) []) key p),
            size := ht.size, count := ht.count } := by
        simp only [HashTable.insert]
        rw [hf, hv]
      rw [h1]

/-- Inserting a fresh key increments `count` by exactly one. -/
theorem insert_count_new {ht : HashTable} {key : Tok} (value : List Posting)
    (h : ht.lookup key = none) : (ht.insert key value).count = ht.count + 1 := by
  rw [insert_eq_of_absent value h]
  by_cases hc : 7 * ht.size < 10 * (ht.count + 1)
  · rw [if_pos hc]
    rfl
  · rw [if_neg hc]

/-- Removing a present key reports success and decrements `count` by one. -/
theorem remove_count_found {ht : HashTable} {key : Tok}
    (h : ht.lookup key ≠ none) :
    (ht.remove key).1 = true ∧ (ht.remove key).2.count = ht.count - 1 := by
  cases hf : assocFind (ht.table.getD (hashKey key ht.size) []) key with
  | none => exact absurd hf h
  | some v0 =>
    have h1 : (ht.remove key).2 =
        { table := ht.table.set (hashKey key ht.size)
            (bucketRemove (ht.table.getD (hashKey key ht.size) []) key),
          size := ht.size, count := ht.count - 1 } := by
      simp only [HashTable.remove]
      rw [hf]
    have h2 : (ht.remove key).1 = true := by
      simp only [HashTable.remove]
      rw [hf]
    exact ⟨h2, by rw [h1]⟩

theorem withIds_append {α : Type} (l : List α) (x : α) :
    ∀ n, withIds n (l ++ [x]) = withIds n l ++ [(n + l.length, x)] := by
  induction l with
  | nil => intro n; simp [withIds]
  | cons y ys ih =>
    intro n
    show (n, y) :: withIds (n + 1) (ys ++ [x]) = (n, y) :: withIds (n + 1) ys ++ _
    rw [ih (n + 1)]
    simp
    omega

theorem withIds_map_fst {α : Type} (l : List α) :
    ∀ n, (withIds n l).map Prod.fst = List.range' n l.length := by
  induction l with
  | nil => intro n; rfl
  | cons y ys ih =>
    intro n
    show n :: (withIds (n + 1) ys).map Prod.fst = List.range' n (ys.length + 1)
    rw [ih (n + 1), List.range'_succ]

theorem withIds_map_snd {α β : Type} (f : α → β) (l : List α) :
    ∀ n, (withIds n l).map (fun p => (p.1, f p.2)) = withIds n (l.map f) := by
  induction l with
  | nil => intro n; rfl
  | cons y ys ih =>
    intro n
    show (n, f y) :: (withIds (n + 1) ys).map _ = (n, f y) :: withIds (n + 1) (ys.map f)
    rw [ih (n + 1)]

theorem assocFind_withIds {α : Type} (l : List α) :
    ∀ n d, n ≤ d → assocFind (withIds n l) d = l.get? (d - n) := by
  induction l with
  | nil => intro n d _; simp [withIds, assocFind]
  | cons x xs ih =>
    intro n d h
    by_cases hd : n = d
    · subst hd
      show (if n = n then some x else _) = _
      rw [if_pos rfl, Nat.sub_self]
      rfl
    · have hlt : n + 1 ≤ d := by omega
      show (if n = d then some x else assocFind (withIds (n + 1) xs) d) = _
      rw [if_neg hd, ih (n + 1) d hlt, show d - n = (d - (n + 1)) + 1 from by omega]
      rfl

theorem streamModel_append (s1 s2 : List (Tok × Nat)) (m : Bucket) :
    streamModel (s1 ++ s2) m = streamModel s2 (streamModel s1 m) :=
  List.foldl_append _ _ _ _

theorem build_engine_append (docs : List (List Char × List Char)) (p : List Char × List Char) :
    build_engine (docs ++ [p]) = (build_engine docs).add_document p.1 p.2 := by
  unfold build_engine
  rw [List.foldl_append]
  rfl

theorem contentStream_append (docs : List (List Char × List Char))
    (p : List Char × List Char) :
    contentStream (docs ++ [p]) = contentStream docs ++ docInserts (1 + docs.length) p.2 := by
  unfold contentStream
  rw [withIds_append, List.map_append]
  simp

/-- Fact: `Indexer.add_document` preserves the invariant against the stream model. -/
theorem htinv_indexerAdd : ∀ (ws : List Tok) (ht : HashTable) (m : Bucket) (d : Nat),
    HTInv ht m →
    HTInv (indexerAddDocument ht d ws)
      (streamModel (ws.map (fun w => (lowerTok w, d))) m) := by
  intro ws
  induction ws with
  | nil => intro ht m d inv; exact inv
  | cons w rest ih =>
    intro ht m d inv
    simp only [indexerAddDocument, streamModel, List.map_cons, List.foldl_cons]
    exact ih (ht.insert (lowerTok w) [⟨d, 1⟩]) (modelInsert m (lowerTok w) [⟨d, 1⟩]) d
      (htinv_insert inv _ _)

/-- The reachable `SearchEngine` state after adding a corpus: the counter, the
    two dicts, and the coupling of the content index with its stream model. -/
theorem engine_state (docs : List (List Char × List Char)) :
    (build_engine docs).no_of_docs = docs.length + 1 ∧
    (build_engine docs).documents = withIds 1 docs ∧
    (build_engine docs).doc_lengths
      = (withIds 1 docs).map (fun p => (p.1, (splitWS p.2.2).length)) ∧
    HTInv (build_engine docs).indexer_content (streamModel (contentStream docs) []) := by
  induction docs using List.reverseRecOn with
  | nil => exact ⟨rfl, rfl, rfl, htinv_empty⟩
  | append_singleton docs p ih =>
    obtain ⟨h1, h2, h3, h4⟩ := ih
    rw [build_engine_append]
    refine ⟨?_, ?_, ?_, ?_⟩
    · show (build_engine docs).no_of_docs + 1 = (docs ++ [p]).length + 1
      rw [h1]
      simp
    · show (build_engine docs).documents
          ++ [((build_engine docs).no_of_docs, (p.1, p.2))] = withIds 1 (docs ++ [p])
      rw [h2, h1, withIds_append]
      simp [Nat.add_comm]
    · show (build_engine docs).doc_lengths
          ++ [((build_engine docs).no_of_docs, (splitWS p.2).length)]
        = (withIds 1 (docs ++ [p])).map (fun q => (q.1, (splitWS q.2.2).length))
      rw [h3, h1, withIds_append, List.map_append]
      simp [Nat.add_comm]
    · show HTInv (indexerAddDocument (build_engine docs).indexer_content
          (build_engine docs).no_of_docs (preprocessing p.2 false))
        (streamModel (contentStream (docs ++ [p])) [])
      rw [contentStream_append, streamModel_append, h1]
      have := htinv_indexerAdd (preprocessing p.2 false)
        (build_engine docs).indexer_content (streamModel (contentStream docs) [])
        (docs.length + 1) h4
      rw [Nat.add_comm 1 docs.length]
      exact this

theorem assocFind_mergeIntoBucket_self {m : Bucket} {k : Tok} {ps0 : List Posting}
    (p : Posting) (hf : assocFind m k = some ps0) :
    assocFind (mergeIntoBucket m k p) k = some (bumpPostings ps0 p) := by
  induction m with
  | nil => simp [assocFind] at hf
  | cons e rest ih =>
    obtain ⟨a, b⟩ := e
    by_cases hak : a = k
    · subst hak
      simp [assocFind] at hf
      subst hf
      simp [mergeIntoBucket, assocFind]
    · simp [assocFind, hak] at hf
      simp [mergeIntoBucket, assocFind, hak]
      exact ih hf

theorem assocFind_mergeIntoBucket_ne {m : Bucket} {k' k : Tok} (p : Posting)
    (hk : k ≠ k') : assocFind (mergeIntoBucket m k' p) k = assocFind m k := by
  induction m with
  | nil => rfl
  | cons e rest ih =>
    obtain ⟨a, b⟩ := e
    by_cases hak : a = k'
    · subst hak
      have : a ≠ k := fun h => hk h.symm
      simp [mergeIntoBucket, assocFind, this]
    · by_cases hk2 : a = k
      · subst hk2
        simp [mergeIntoBucket, assocFind, hak]
      · simp [mergeIntoBucket, assocFind, hak, hk2, ih]

/-- One insert of the stream bumps exactly its own `(key, doc)` count. -/
theorem modelInsert_modelCount (m : Bucket) (k' : Tok) (d' : Nat) (k : Tok) (d : Nat) :
    modelCount (modelInsert m k' [⟨d', 1⟩]) k d
      = modelCount m k d + (if k = k' ∧ d = d' then 1 else 0) := by
  unfold modelInsert
  cases hf : assocFind m k' with
  | some ps0 =>
    show modelCount (mergeIntoBucket m k' ⟨d', 1⟩) k d = _
    by_cases hk : k = k'
    · subst hk
      unfold modelCount
      rw [assocFind_mergeIntoBucket_self _ hf, hf]
      show postingCount (bumpPostings ps0 ⟨d', 1⟩) d = postingCount ps0 d + _
      rw [bumpPostings_postingCount]
      by_cases hd : d = d' <;> simp [hd]
    · unfold modelCount
      rw [assocFind_mergeIntoBucket_ne _ hk]
      simp [hk]
  | none =>
    show modelCount (m ++ [(k', [⟨d', 1⟩])]) k d = _
    by_cases hk : k = k'
    · subst hk
      unfold modelCount
      rw [assocFind_append_of_none _ hf]
      by_cases hd : d = d'
      · subst hd
        simp [assocFind, postingCount, findPosting, hf]
      · have hd' : ¬ d' = d := fun h => hd h.symm
        simp [assocFind, postingCount, findPosting, hd, hd', hf]
    · unfold modelCount
      have hk' : ¬ k' = k := fun h => hk h.symm
      cases hg : assocFind m k with
      | some v =>
        rw [assocFind_append_of_some _ hg]
        simp [hk]
      | none =>
        have h0 : assocFind ([(k', [⟨d', 1⟩])] : Bucket) k = none := by
          simp [assocFind, hk']
        rw [assocFind_append_of_none _ hg, h0]
        simp [hk]

/-- Folding a stream adds exactly the number of matching inserts to each
    `(key, doc)` count. -/
theorem streamModel_modelCount (s : List (Tok × Nat)) :
    ∀ (m : Bucket) (k : Tok) (d : Nat),
      modelCount (streamModel s m) k d = modelCount m k d + pairCount s k d := by
  induction s with
  | nil => intro m k d; simp [streamModel, pairCount]
  | cons e rest ih =>
    intro m k d
    obtain ⟨k', d'⟩ := e
    show modelCount (streamModel rest (modelInsert m k' [⟨d', 1⟩])) k d = _
    rw [ih, modelInsert_modelCount]
    unfold pairCount
    rw [List.countP_cons]
    by_cases h : k' = k ∧ d' = d
    · have h2 : k = k' ∧ d = d' := ⟨h.1.symm, h.2.symm⟩
      simp only [if_pos h2]
      rw [if_pos (by simpa using h)]
      omega
    · have h2 : ¬ (k = k' ∧ d = d') := fun hh => h ⟨hh.1.symm, hh.2.symm⟩
      simp only [if_neg h2]
      rw [if_neg (by simpa using h)]
      omega

theorem mem_mergeIntoBucket {m : Bucket} {k : Tok} {p : Posting} {e : Tok × List Posting}
    (h : e ∈ mergeIntoBucket m k p) :
    e ∈ m ∨ ∃ ps0, (k, ps0) ∈ m ∧ e = (k, bumpPostings ps0 p) := by
  induction m with
  | nil => simp [mergeIntoBucket] at h
  | cons f rest ih =>
    obtain ⟨a, b⟩ := f
    by_cases hak : a = k
    · subst hak
      simp only [mergeIntoBucket, if_pos rfl] at h
      rcases List.mem_cons.1 h with h1 | h1
      · exact Or.inr ⟨b, List.mem_cons_self _ _, h1⟩
      · exact Or.inl (List.mem_cons_of_mem _ h1)
    · simp only [mergeIntoBucket, if_neg hak] at h
      rcases List.mem_cons.1 h with h1 | h1
      · exact Or.inl (h1 ▸ List.mem_cons_self _ _)
      · rcases ih h1 with h2 | ⟨ps0, hps0, he⟩
        · exact Or.inl (List.mem_cons_of_mem _ h2)
        · exact Or.inr ⟨ps0, List.mem_cons_of_mem _ hps0, he⟩

theorem modelInsert_nd {m : Bucket} {k : Tok} {d : Nat} (hm : modelND m) :
    modelND (modelInsert m k [⟨d, 1⟩]) := by
  unfold modelInsert
  cases hf : assocFind m k with
  | some ps0 =>
    show modelND (mergeIntoBucket m k ⟨d, 1⟩)
    intro e he
    rcases mem_mergeIntoBucket he with h1 | ⟨ps0', hps0, rfl⟩
    · exact hm e h1
    · exact bumpPostings_nodup_docid (hm _ hps0)
  | none =>
    show modelND (m ++ [(k, [⟨d, 1⟩])])
    intro e he
    rcases List.mem_append.1 he with h1 | h1
    · exact hm e h1
    · rw [List.mem_singleton] at h1
      subst h1
      simp

theorem modelND_nil : modelND [] := by
  intro e he
  simp at he

theorem streamModel_nd (s : List (Tok × Nat)) :
    ∀ m, modelND m → modelND (streamModel s m) := by
  induction s with
  | nil => intro m hm; exact hm
  | cons e rest ih =>
    intro m hm
    obtain ⟨k', d'⟩ := e
    exact ih _ (modelInsert_nd hm)

/-- Where a posting can come from after one model insert. -/
theorem modelInsert_provenance {m : Bucket} {k' : Tok} {d' : Nat} {k : Tok}
    {ps : List Posting} {p : Posting}
    (hfind : assocFind (modelInsert m k' [⟨d', 1⟩]) k = some ps) (hp : p ∈ ps) :
    (∃ ps0, assocFind m k = some ps0 ∧ ∃ p0 ∈ ps0, p0.doc_id = p.doc_id)
      ∨ (k = k' ∧ p.doc_id = d') := by
  cases hf : assocFind m k' with
  | some ps0 =>
    have he1 : modelInsert m k' [⟨d', 1⟩] = mergeIntoBucket m k' ⟨d', 1⟩ := by
      unfold modelInsert
      rw [hf]
      rfl
    rw [he1] at hfind
    by_cases hk : k = k'
    · subst hk
      rw [assocFind_mergeIntoBucket_self _ hf] at hfind
      injection hfind with hps
      subst hps
      rcases mem_bumpPostings hp with ⟨q0, hq0, hid⟩ | hpp
      · exact Or.inl ⟨ps0, hf, q0, hq0, hid⟩
      · exact Or.inr ⟨rfl, by rw [hpp]⟩
    · rw [assocFind_mergeIntoBucket_ne _ hk] at hfind
      exact Or.inl ⟨ps, hfind, p, hp, rfl⟩
  | none =>
    have he1 : modelInsert m k' [⟨d', 1⟩] = m ++ [(k', [⟨d', 1⟩])] := by
      unfold modelInsert
      rw [hf]
    rw [he1] at hfind
    by_cases hk : k = k'
    · subst hk
      rw [assocFind_append_of_none _ hf] at hfind
      have hps : ps = [⟨d', 1⟩] := by
        have := hfind
        simp [assocFind] at this
        exact this.symm
      subst hps
      rw [List.mem_singleton] at hp
      exact Or.inr ⟨rfl, by rw [hp]⟩
    · have hk' : ¬ k' = k := fun h => hk h.symm
      have h0 : assocFind ([(k', [⟨d', 1⟩])] : Bucket) k = none := by
        simp [assocFind, hk']
      cases hg : assocFind m k with
      | some v =>
        rw [assocFind_append_of_some _ hg] at hfind
        injection hfind with hps
        exact Or.inl ⟨v, rfl, p, by rw [hps]; exact hp, rfl⟩
      | none =>
        rw [assocFind_append_of_none _ hg, h0] at hfind
        cases hfind

/-- Every posting in the folded model traces back to the starting model or to
    an insert of the stream. -/
theorem streamModel_provenance (s : List (Tok × Nat)) :
    ∀ (m : Bucket) (k : Tok) (ps : List Posting) (p : Posting),
      assocFind (streamModel s m) k = some ps → p ∈ ps →
      (∃ ps0, assocFind m k = some ps0 ∧ ∃ p0 ∈ ps0, p0.doc_id = p.doc_id)
        ∨ (k, p.doc_id) ∈ s := by
  induction s with
  | nil => intro m k ps p hf hp; exact Or.inl ⟨ps, hf, p, hp, rfl⟩
  | cons e rest ih =>
    intro m k ps p hf hp
    obtain ⟨k', d'⟩ := e
    rcases ih (modelInsert m k' [⟨d', 1⟩]) k ps p hf hp with ⟨ps0, hfind0, p0, hp0, hid⟩ | hmem
    · rcases modelInsert_provenance hfind0 hp0 with ⟨ps1, hf1, p1, hp1, hid1⟩ | ⟨hkk, hdd⟩
      · exact Or.inl ⟨ps1, hf1, p1, hp1, hid1.trans hid⟩
      · have hpd : p.doc_id = d' := by rw [← hid]; exact hdd
        subst hkk
        rw [hpd]
        exact Or.inr (List.mem_cons_self _ _)
    · exact Or.inr (List.mem_cons_of_mem _ hmem)

theorem mem_withIds {α : Type} : ∀ (l : List α) (n : Nat) (q : Nat × α),
    q ∈ withIds n l → n ≤ q.1 ∧ l.get? (q.1 - n) = some q.2 := by
  intro l
  induction l with
  | nil => intro n q h; simp [withIds] at h
  | cons x xs ih =>
    intro n q h
    rcases List.mem_cons.1 h with h1 | h1
    · subst h1
      refine ⟨Nat.le_refl n, ?_⟩
      rw [Nat.sub_self]
      rfl
    · obtain ⟨h2, h3⟩ := ih (n + 1) q h1
      refine ⟨by omega, ?_⟩
      rw [show q.1 - n = (q.1 - (n + 1)) + 1 from by omega]
      exact h3

/-- A content-index insert `(k, d)` names an existing document `d` whose
    preprocessed content contains a word lowercasing to `k`. -/
theorem contentStream_mem {docs : List (List Char × List Char)} {k : Tok} {d : Nat}
    (h : (k, d) ∈ contentStream docs) :
    ∃ tc : List Char × List Char, docs.get? (d - 1) = some tc ∧ 1 ≤ d ∧
      ∃ w ∈ preprocessing tc.2 false, lowerTok w = k := by
  unfold contentStream at h
  rcases List.mem_flatten.1 h with ⟨part, hpart, hmem⟩
  rcases List.mem_map.1 hpart with ⟨q, hq, rfl⟩
  unfold docInserts at hmem
  rcases List.mem_map.1 hmem with ⟨w, hw, heq⟩
  have hk : lowerTok w = k := congrArg Prod.fst heq
  have hd : q.1 = d := congrArg Prod.snd heq
  obtain ⟨hn, hget⟩ := mem_withIds docs 1 q hq
  rw [hd] at hn hget
  exact ⟨q.2, hget, hn, w, hw, hk⟩

/-- The number of `(k, d)` inserts in the corpus stream is the number of words
    of the preprocessed content of document `d` that lowercase to `k`. -/
theorem contentStream_pairCount : ∀ (docs : List (List Char × List Char)) (n : Nat)
    (k : Tok) (d : Nat), n ≤ d →
    pairCount (((withIds n docs).map (fun p => docInserts p.1 p.2.2)).flatten) k d
      = (match docs.get? (d - n) with
         | some tc => (preprocessing tc.2 false).countP (fun w => decide (lowerTok w = k))
         | none => 0) := by
  intro docs
  induction docs with
  | nil =>
    intro n k d _
    simp [pairCount, withIds]
  | cons tc rest ih =>
    intro n k d h
    rw [show withIds n (tc :: rest) = (n, tc) :: withIds (n + 1) rest from rfl,
      List.map_cons, List.flatten_cons]
    unfold pairCount
    rw [List.countP_append]
    by_cases hd : d = n
    · subst hd
      have h1 : (docInserts d tc.2).countP (fun e => decide (e.1 = k ∧ e.2 = d))
          = (preprocessing tc.2 false).countP (fun w => decide (lowerTok w = k)) := by
        unfold docInserts
        rw [List.countP_map]
        apply List.countP_congr
        intro w _
        simp
      have h2 : (((withIds (d + 1) rest).map
          (fun p => docInserts p.1 p.2.2)).flatten).countP
            (fun e => decide (e.1 = k ∧ e.2 = d)) = 0 := by
        rw [List.countP_eq_zero]
        intro e he
        rcases List.mem_flatten.1 he with ⟨part, hpart, hmem⟩
        rcases List.mem_map.1 hpart with ⟨q, hq, rfl⟩
        unfold docInserts at hmem
        rcases List.mem_map.1 hmem with ⟨w, _, heq⟩
        have hd2 : q.1 = e.2 := congrArg Prod.snd heq
        have hge := (mem_withIds rest (d + 1) q hq).1
        simp only [decide_eq_true_eq]
        rintro ⟨_, h4⟩
        omega
      rw [h1, h2, Nat.sub_self]
      show _ + 0 = _
      rfl
    · have hlt : n + 1 ≤ d := by omega
      have h1 : (docInserts n tc.2).countP (fun e => decide (e.1 = k ∧ e.2 = d)) = 0 := by
        rw [List.countP_eq_zero]
        intro e he
        unfold docInserts at he
        rcases List.mem_map.1 he with ⟨w, _, heq⟩
        have hd2 : e.2 = n := (congrArg Prod.snd heq).symm
        simp only [decide_eq_true_eq]
        rintro ⟨_, h4⟩
        omega
      have ih2 := ih (n + 1) k d hlt
      unfold pairCount at ih2
      rw [h1, ih2, show d - n = (d - (n + 1)) + 1 from by omega, List.get?_cons_succ]
      omega

theorem splitWSAux_ne_nil_of_acc : ∀ (cs : List Char) (acc : List Char), acc ≠ [] →
    splitWSAux cs acc ≠ [] := by
  intro cs
  induction cs with
  | nil =>
    intro acc h
    simp only [splitWSAux]
    rw [if_neg (by simpa using h)]
    simp
  | cons c cs ih =>
    intro acc h
    simp only [splitWSAux]
    by_cases hc : isPySpace c
    · rw [if_pos hc, if_neg (by simpa using h)]
      simp
    · rw [if_neg hc]
      exact ih (c :: acc) (by simp)

theorem splitWSAux_ne_nil_of_mem : ∀ (cs : List Char) (acc : List Char) (c : Char),
    c ∈ cs → isPySpace c = false → splitWSAux cs acc ≠ [] := by
  intro cs
  induction cs with
  | nil => intro acc c h _; simp at h
  | cons b cs ih =>
    intro acc c hmem hc
    simp only [splitWSAux]
    rcases List.mem_cons.1 hmem with h0 | h1
    · subst h0
      rw [if_neg (by simp [hc])]
      exact splitWSAux_ne_nil_of_acc cs (c :: acc) (by simp)
    · by_cases hb : isPySpace b
      · rw [if_pos hb]
        by_cases ha : acc.isEmpty
        · rw [if_pos ha]
          exact ih [] c h1 hc
        · rw [if_neg ha]
          simp
      · rw [if_neg hb]
        exact ih (b :: acc) c h1 hc

/-- A text containing a non-whitespace character splits into at least one token. -/
theorem splitWS_ne_nil {cs : List Char} {c : Char} (h : c ∈ cs)
    (hc : isPySpace c = false) : splitWS cs ≠ [] :=
  splitWSAux_ne_nil_of_mem cs [] c h hc

theorem splitWSAux_eq_nil_of_all : ∀ (cs : List Char),
    (∀ c ∈ cs, isPySpace c = true) → splitWSAux cs [] = [] := by
  intro cs
  induction cs with
  | nil => intro _; rfl
  | cons b cs ih =>
    intro h
    simp only [splitWSAux]
    rw [if_pos (h b (List.mem_cons_self _ _))]
    rw [if_pos (by simp)]
    exact ih (fun c hc => h c (List.mem_cons_of_mem _ hc))

/-- A non-empty split exhibits a non-whitespace character. -/
theorem splitWS_exists_nonspace {cs : List Char} (h : splitWS cs ≠ []) :
    ∃ c ∈ cs, isPySpace c = false := by
  by_contra hall
  push_neg at hall
  refine h (splitWSAux_eq_nil_of_all cs ?_)
  intro c hc
  have := hall c hc
  cases hb : isPySpace c
  · exact absurd hb this
  · rfl

theorem mem_pyStrip {c : Char} {l : List Char} (h : c ∈ pyStrip l) : c ∈ l := by
  unfold pyStrip at h
  rw [List.mem_reverse] at h
  have h2 := List.Sublist.mem h (List.dropWhile_sublist _)
  rw [List.mem_reverse] at h2
  exact List.Sublist.mem h2 (List.dropWhile_sublist _)

/-- If preprocessing the content yields any word, the tokenizer found a token. -/
theorem preprocessing_tokens_ne_nil {content : List Char} {w : Tok}
    (h : w ∈ preprocessing content false) : splitWS (pyStrip (stripPunct content)) ≠ [] := by
  intro hnil
  have hz : preprocessing content false = [] := by
    simp only [preprocessing]
    rw [hnil]
    rfl
  rw [hz] at h
  exact absurd h (List.not_mem_nil w)

/-- If preprocessing the content yields any word, the raw content itself splits
    into at least one whitespace token (so `len(content.split()) ≥ 1`). -/
theorem content_split_ne_nil {content : List Char} {w : Tok}
    (h : w ∈ preprocessing content false) : splitWS content ≠ [] := by
  rcases splitWS_exists_nonspace (preprocessing_tokens_ne_nil h) with ⟨c, hc, hcs⟩
  exact splitWS_ne_nil (List.mem_of_mem_filter (mem_pyStrip hc)) hcs

theorem updScore_map_fst (sc : List (Nat × ℚ)) (d : Nat) (x : ℚ) :
    (updScore sc d x).map Prod.fst = sc.map Prod.fst := by
  unfold updScore
  rw [List.map_map]
  apply List.map_congr_left
  intro p _
  by_cases h : p.1 = d <;> simp [h]

theorem updScore_cons (p : Nat × ℚ) (rest : List (Nat × ℚ)) (d : Nat) (x : ℚ) :
    updScore (p :: rest) d x
      = (if p.1 = d then (p.1, p.2 + x) else p) :: updScore rest d x := by
  simp [updScore]

theorem scoresVal_updScore_self {sc : List (Nat × ℚ)} {d : Nat} (x : ℚ)
    (h : d ∈ sc.map Prod.fst) : scoresVal (updScore sc d x) d = scoresVal sc d + x := by
  induction sc with
  | nil => simp at h
  | cons p rest ih =>
    by_cases hp : p.1 = d
    · rw [updScore_cons, if_pos hp]
      unfold scoresVal
      rw [show assocFind ((p.1, p.2 + x) :: updScore rest d x) d = some (p.2 + x) from by
        simp [assocFind, hp]]
      rw [show assocFind (p :: rest) d = some p.2 from by
        rw [show (p : Nat × ℚ) :: rest = (p.1, p.2) :: rest from by rw [Prod.mk.eta]]
        simp [assocFind, hp]]
      rfl
    · have h1 : d ∈ rest.map Prod.fst := by
        rcases (by simpa using h) with h1 | h1
        · exact absurd h1.symm hp
        · simpa using h1
      rw [updScore_cons, if_neg hp]
      unfold scoresVal
      rw [show assocFind (p :: updScore rest d x) d = assocFind (updScore rest d x) d from by
        rw [show (p : Nat × ℚ) :: updScore rest d x
            = (p.1, p.2) :: updScore rest d x from by rw [Prod.mk.eta]]
        simp [assocFind, hp]]
      rw [show assocFind (p :: rest) d = assocFind rest d from by
        rw [show (p : Nat × ℚ) :: rest = (p.1, p.2) :: rest from by rw [Prod.mk.eta]]
        simp [assocFind, hp]]
      exact ih h1

theorem scoresVal_updScore_ne {sc : List (Nat × ℚ)} {d d' : Nat} (x : ℚ) (h : d ≠ d') :
    scoresVal (updScore sc d' x) d = scoresVal sc d := by
  induction sc with
  | nil => rfl
  | cons p rest ih =>
    rw [updScore_cons]
    unfold scoresVal
    by_cases hp : p.1 = d'
    · have hp2 : ¬ p.1 = d := by rw [hp]; exact fun hh => h hh.symm
      rw [if_pos hp]
      rw [show assocFind ((p.1, p.2 + x) :: updScore rest d' x) d
          = assocFind (updScore rest d' x) d from by simp [assocFind, hp2]]
      rw [show assocFind (p :: rest) d = assocFind rest d from by
        rw [show (p : Nat × ℚ) :: rest = (p.1, p.2) :: rest from by rw [Prod.mk.eta]]
        simp [assocFind, hp2]]
      exact ih
    · rw [if_neg hp]
      by_cases hp2 : p.1 = d
      · rw [show assocFind (p :: updScore rest d' x) d = some p.2 from by
          rw [show (p : Nat × ℚ) :: updScore rest d' x
              = (p.1, p.2) :: updScore rest d' x from by rw [Prod.mk.eta]]
          simp [assocFind, hp2]]
        rw [show assocFind (p :: rest) d = some p.2 from by
          rw [show (p : Nat × ℚ) :: rest = (p.1, p.2) :: rest from by rw [Prod.mk.eta]]
          simp [assocFind, hp2]]
      · rw [show assocFind (p :: updScore rest d' x) d
            = assocFind (updScore rest d' x) d from by
          rw [show (p : Nat × ℚ) :: updScore rest d' x
              = (p.1, p.2) :: updScore rest d' x from by rw [Prod.mk.eta]]
          simp [assocFind, hp2]]
        rw [show assocFind (p :: rest) d = assocFind rest d from by
          rw [show (p : Nat × ℚ) :: rest = (p.1, p.2) :: rest from by rw [Prod.mk.eta]]
          simp [assocFind, hp2]]
        exact ih

theorem foldl_updScore_map_fst (contrib : Posting → ℚ) :
    ∀ (ps : List Posting) (sc : List (Nat × ℚ)),
      ((ps.foldl (fun s item => updScore s item.doc_id (contrib item)) sc).map Prod.fst)
        = sc.map Prod.fst := by
  intro ps
  induction ps with
  | nil => intro sc; rfl
  | cons q qs ih =>
    intro sc
    rw [List.foldl_cons, ih, updScore_map_fst]

/-- The inner posting fold adds the contributions of the postings of document
    `d` to its score. -/
theorem foldl_updScore_postings (contrib : Posting → ℚ) :
    ∀ (ps : List Posting) (sc : List (Nat × ℚ)) (d : Nat), d ∈ sc.map Prod.fst →
    scoresVal (ps.foldl (fun s item => updScore s item.doc_id (contrib item)) sc) d
      = scoresVal sc d
        + ((ps.filter (fun item => decide (item.doc_id = d))).map contrib).sum := by
  intro ps
  induction ps with
  | nil => intro sc d _; simp
  | cons q qs ih =>
    intro sc d h
    rw [List.foldl_cons]
    have hkeys : d ∈ (updScore sc q.doc_id (contrib q)).map Prod.fst := by
      rw [updScore_map_fst]
      exact h
    rw [ih _ d hkeys]
    by_cases hq : q.doc_id = d
    · rw [List.filter_cons_of_pos (by simp [hq]), hq, scoresVal_updScore_self _ h,
        List.map_cons, List.sum_cons]
      ring
    · rw [List.filter_cons_of_neg (by simp [hq]),
        scoresVal_updScore_ne _ (fun hh => hq hh.symm)]

theorem findPosting_eq_none_iff (ps : List Posting) (d : Nat) :
    findPosting ps d = none ↔ ∀ q ∈ ps, q.doc_id ≠ d := by
  induction ps with
  | nil => simp [findPosting]
  | cons r rs ih =>
    by_cases hr : r.doc_id = d
    · simp [findPosting, hr]
    · simp [findPosting, hr, ih]

theorem findPosting_some {ps : List Posting} {d : Nat} {q : Posting}
    (h : findPosting ps d = some q) : q.doc_id = d ∧ q ∈ ps := by
  induction ps with
  | nil => cases h
  | cons r rs ih =>
    by_cases hr : r.doc_id = d
    · rw [show findPosting (r :: rs) d = some r from by simp [findPosting, hr]] at h
      injection h with h2
      subst h2
      exact ⟨hr, List.mem_cons_self _ _⟩
    · rw [show findPosting (r :: rs) d = findPosting rs d from by simp [findPosting, hr]] at h
      obtain ⟨h2, h3⟩ := ih h
      exact ⟨h2, List.mem_cons_of_mem _ h3⟩

/-- Under duplicate-free doc ids, filtering for a document keeps exactly the
    posting `findPosting` returns. -/
theorem filter_docid_of_nodup {ps : List Posting} {d : Nat} {q : Posting}
    (nd : (ps.map Posting.doc_id).Nodup) (h : findPosting ps d = some q) :
    ps.filter (fun item => decide (item.doc_id = d)) = [q] := by
  induction ps with
  | nil => cases h
  | cons r rs ih =>
    have nd2 : r.doc_id ∉ rs.map Posting.doc_id ∧ (rs.map Posting.doc_id).Nodup := by
      simpa using nd
    by_cases hr : r.doc_id = d
    · rw [show findPosting (r :: rs) d = some r from by simp [findPosting, hr]] at h
      injection h with h2
      subst h2
      rw [List.filter_cons_of_pos (by simp [hr])]
      have : rs.filter (fun item => decide (item.doc_id = d)) = [] := by
        rw [List.filter_eq_nil_iff]
        intro q' hq'
        simp only [decide_eq_true_eq]
        intro hqd
        exact nd2.1 (List.mem_map.2 ⟨q', hq', by rw [hqd, hr]⟩)
      rw [this]
    · rw [show findPosting (r :: rs) d = findPosting rs d from by simp [findPosting, hr]] at h
      rw [List.filter_cons_of_neg (by simp [hr])]
      exact ih nd2.2 h

theorem tfStep_map_fst (lg : ℚ → ℚ) (e : SearchEngine) (sc : List (Nat × ℚ)) (w : Tok) :
    (tfStep lg e sc w).map Prod.fst = sc.map Prod.fst := by
  unfold tfStep
  cases hf : e.indexer_content.lookup (lowerTok w) with
  | none => rfl
  | some word_docs =>
    dsimp only
    by_cases he : word_docs.isEmpty
    · rw [if_pos he]
    · rw [if_neg he]
      exact foldl_updScore_map_fst _ word_docs sc

theorem scoresVal_tfStep (lg : ℚ → ℚ) (e : SearchEngine) {sc : List (Nat × ℚ)} {d : Nat}
    (w : Tok) (h : d ∈ sc.map Prod.fst) :
    scoresVal (tfStep lg e sc w) d = scoresVal sc d + wordContrib lg e d w := by
  unfold tfStep wordContrib
  cases hf : e.indexer_content.lookup (lowerTok w) with
  | none => simp
  | some word_docs =>
    dsimp only
    by_cases he : word_docs.isEmpty
    · rw [if_pos he, if_pos he]
      simp
    · rw [if_neg he, if_neg he]
      exact foldl_updScore_postings _ word_docs sc d h

theorem scoresVal_foldl_tfStep (lg : ℚ → ℚ) (e : SearchEngine) :
    ∀ (words : List Tok) (sc : List (Nat × ℚ)) (d : Nat), d ∈ sc.map Prod.fst →
    scoresVal (words.foldl (tfStep lg e) sc) d
      = scoresVal sc d + (words.map (wordContrib lg e d)).sum := by
  intro words
  induction words with
  | nil => intro sc d _; simp
  | cons w ws ih =>
    intro sc d h
    rw [List.foldl_cons, ih _ d (by rw [tfStep_map_fst]; exact h),
      scoresVal_tfStep lg e w h, List.map_cons, List.sum_cons]
    ring

theorem scoresVal_zero_init {α : Type} (l : List (Nat × α)) (d : Nat) :
    scoresVal (l.map (fun p => (p.1, (0 : ℚ)))) d = 0 := by
  unfold scoresVal
  induction l with
  | nil => rfl
  | cons p rest ih =>
    rw [List.map_cons]
    by_cases h : p.1 = d
    · simp [assocFind, h]
    · rw [show assocFind ((p.1, (0 : ℚ)) :: rest.map (fun p => (p.1, (0 : ℚ)))) d
          = assocFind (rest.map (fun p => (p.1, (0 : ℚ)))) d from by simp [assocFind, h]]
      exact ih

theorem map_fst_zero_init {α : Type} (l : List (Nat × α)) :
    (l.map (fun p => (p.1, (0 : ℚ)))).map Prod.fst = l.map Prod.fst := by
  rw [List.map_map]
  rfl

/-- Under duplicate-free posting doc ids, the contribution of one word is exactly
    the claim term score with total `no_of_docs`. -/
theorem wordContrib_eq_claimTerm (lg : ℚ → ℚ) (e : SearchEngine) (d : Nat) (w : Tok)
    (hnd : ∀ ps, e.indexer_content.lookup (lowerTok w) = some ps →
      (ps.map Posting.doc_id).Nodup) :
    wordContrib lg e d w = claimTermScore lg e (e.no_of_docs : ℚ) d w := by
  unfold wordContrib claimTermScore
  cases hf : e.indexer_content.lookup (lowerTok w) with
  | none => rfl
  | some ps =>
    dsimp only
    have nd := hnd ps hf
    by_cases he : ps.isEmpty
    · rw [if_pos he]
      have hps : ps = [] := by simpa [List.isEmpty_iff] using he
      subst hps
      simp [postingCount, findPosting]
    · rw [if_neg he]
      cases hfp : findPosting ps d with
      | none =>
        have hfil : ps.filter (fun item => decide (item.doc_id = d)) = [] := by
          rw [List.filter_eq_nil_iff]
          intro q hq
          simp only [decide_eq_true_eq]
          exact (findPosting_eq_none_iff ps d).1 hfp q hq
        rw [hfil]
        simp [postingCount, hfp]
      | some q =>
        have hq := findPosting_some hfp
        rw [filter_docid_of_nodup nd hfp]
        simp [postingCount, hfp, hq.1]

/-- The computed score of a stored document equals the claim formula, taking as
    the total the `no_of_docs` counter of the engine. -/
theorem tf_idf_scoresVal (lg : ℚ → ℚ) (docs : List (List Char × List Char))
    (q : List Char) (d : Nat) (h1d : 1 ≤ d) (hdn : d ≤ docs.length) :
    scoresVal ((build_engine docs).tf_idf_scores lg q) d
      = claimScore lg (build_engine docs) (((build_engine docs).no_of_docs : ℚ)) q d := by
  obtain ⟨h1, h2, h3, h4⟩ := engine_state docs
  have hkeys : d ∈ ((build_engine docs).documents.map
      (fun p => (p.1, (0 : ℚ)))).map Prod.fst := by
    rw [map_fst_zero_init, h2, withIds_map_fst]
    rw [List.mem_range'_1]
    omega
  have heq : (build_engine docs).tf_idf_scores lg q
      = (preprocessing q true).foldl (tfStep lg (build_engine docs))
          ((build_engine docs).documents.map (fun p => (p.1, (0 : ℚ)))) := rfl
  rw [heq, scoresVal_foldl_tfStep _ _ _ _ _ hkeys, scoresVal_zero_init, zero_add]
  unfold claimScore
  congr 1
  apply List.map_congr_left
  intro w _
  apply wordContrib_eq_claimTerm
  intro ps hf
  have hlk := htinv_lookup h4 (lowerTok w)
  rw [hlk] at hf
  have hnd := streamModel_nd (contentStream docs) [] modelND_nil
  exact hnd (lowerTok w, ps) (assocFind_mem hf)

theorem mem_insertRanked {x a : Nat × ℚ} : ∀ {l : List (Nat × ℚ)},
    a ∈ insertRanked x l → a = x ∨ a ∈ l := by
  intro l
  induction l with
  | nil =>
    intro h
    simp only [insertRanked] at h
    exact Or.inl (List.mem_singleton.1 h)
  | cons y ys ih =>
    intro h
    simp only [insertRanked] at h
    by_cases hc : x.2 < y.2
    · rw [if_pos hc] at h
      rcases List.mem_cons.1 h with h1 | h1
      · exact Or.inr (h1 ▸ List.mem_cons_self _ _)
      · rcases ih h1 with h2 | h2
        · exact Or.inl h2
        · exact Or.inr (List.mem_cons_of_mem _ h2)
    · rw [if_neg hc] at h
      rcases List.mem_cons.1 h with h1 | h1
      · exact Or.inl h1
      · exact Or.inr h1

theorem mem_sortByScoreDesc {a : Nat × ℚ} : ∀ {l : List (Nat × ℚ)},
    a ∈ sortByScoreDesc l → a ∈ l := by
  intro l
  induction l with
  | nil => intro h; exact h
  | cons x xs ih =>
    intro h
    rcases mem_insertRanked h with h1 | h1
    · exact h1 ▸ List.mem_cons_self _ _
    · exact List.mem_cons_of_mem _ (ih h1)

theorem insertRanked_pairwise {x : Nat × ℚ} : ∀ {l : List (Nat × ℚ)},
    l.Pairwise rankRel → (∀ y ∈ l, x.1 < y.1) → (insertRanked x l).Pairwise rankRel := by
  intro l
  induction l with
  | nil =>
    intro _ _
    simp [insertRanked]
  | cons y ys ih =>
    intro hp hx
    simp only [insertRanked]
    by_cases hc : x.2 < y.2
    · rw [if_pos hc]
      rw [List.pairwise_cons] at hp ⊢
      refine ⟨?_, ih hp.2 (fun z hz => hx z (List.mem_cons_of_mem _ hz))⟩
      intro z hz
      rcases mem_insertRanked hz with h2 | h2
      · rw [h2]
        exact Or.inl hc
      · exact hp.1 z h2
    · rw [if_neg hc]
      rw [List.pairwise_cons]
      constructor
      · intro z hz
        rcases List.mem_cons.1 hz with h2 | h2
        · subst h2
          rcases lt_or_eq_of_le (le_of_not_lt hc) with h3 | h3
          · exact Or.inl h3
          · exact Or.inr ⟨h3.symm, hx z (List.mem_cons_self _ _)⟩
        · have hyz := (List.pairwise_cons.1 hp).1 z h2
          rcases hyz with h3 | h3
          · exact Or.inl (lt_of_lt_of_le h3 (le_of_not_lt hc))
          · rcases lt_or_eq_of_le (le_of_not_lt hc) with h4 | h4
            · exact Or.inl (h3.1 ▸ h4)
            · exact Or.inr ⟨by rw [← h4, h3.1], hx z (List.mem_cons_of_mem _ h2)⟩
      · exact hp

/-- The stable descending insertion sort of a list with strictly increasing
    document ids is sorted by score descending with ties in ascending id
    order. -/
theorem sortByScoreDesc_pairwise : ∀ {l : List (Nat × ℚ)},
    l.Pairwise (fun a b => a.1 < b.1) → (sortByScoreDesc l).Pairwise rankRel := by
  intro l
  induction l with
  | nil => intro _; simp [sortByScoreDesc]
  | cons x xs ih =>
    intro hp
    rw [List.pairwise_cons] at hp
    exact insertRanked_pairwise (ih hp.2) (fun y hy => hp.1 y (mem_sortByScoreDesc hy))

theorem foldl_tfStep_map_fst (lg : ℚ → ℚ) (e : SearchEngine) :
    ∀ (ws : List Tok) (sc : List (Nat × ℚ)),
      ((ws.foldl (tfStep lg e) sc).map Prod.fst) = sc.map Prod.fst := by
  intro ws
  induction ws with
  | nil => intro sc; rfl
  | cons w rest ih =>
    intro sc
    rw [List.foldl_cons, ih, tfStep_map_fst]

/-- The scores list carries exactly the stored document ids `1, ..., n`, in
    ascending order. -/
theorem tf_idf_scores_map_fst (lg : ℚ → ℚ) (docs : List (List Char × List Char))
    (q : List Char) :
    ((build_engine docs).tf_idf_scores lg q).map Prod.fst = List.range' 1 docs.length := by
  obtain ⟨_, h2, _, _⟩ := engine_state docs
  have heq : (build_engine docs).tf_idf_scores lg q
      = (preprocessing q true).foldl (tfStep lg (build_engine docs))
          ((build_engine docs).documents.map (fun p => (p.1, (0 : ℚ)))) := rfl
  rw [heq, foldl_tfStep_map_fst, map_fst_zero_init, h2, withIds_map_fst]

/-- The stored term count in the content index equals the number of matching
    `(term, doc)` inserts, i.e. the number of preprocessed content words of the
    document that lowercase to the term. -/
theorem engine_termCount (docs : List (List Char × List Char)) (d : Nat) (h1 : 1 ≤ d)
    (tc : List Char × List Char) (hget : docs.get? (d - 1) = some tc) (term : Tok) :
    postingCount (((build_engine docs).indexer_content.lookup term).getD []) d
      = (preprocessing tc.2 false).countP (fun w => decide (lowerTok w = term)) := by
  obtain ⟨_, _, _, h4⟩ := engine_state docs
  rw [htinv_lookup h4 term]
  show modelCount (streamModel (contentStream docs) []) term d = _
  rw [streamModel_modelCount]
  show 0 + pairCount (contentStream docs) term d = _
  rw [zero_add]
  unfold contentStream
  rw [contentStream_pairCount docs 1 term d h1, hget]

/-- Reachable content-index posting lists never duplicate a document id. -/
theorem engine_postings_nodup (docs : List (List Char × List Char)) (term : Tok)
    (ps : List Posting) (h : (build_engine docs).indexer_content.lookup term = some ps) :
    (ps.map Posting.doc_id).Nodup := by
  obtain ⟨_, _, _, h4⟩ := engine_state docs
  rw [htinv_lookup h4 term] at h
  exact streamModel_nd (contentStream docs) [] modelND_nil (term, ps) (assocFind_mem h)

/-- Every document mentioned by a content posting has a stored length of at
    least one: its content produced an indexed token, hence a whitespace token. -/
theorem engine_posting_doclen (docs : List (List Char × List Char)) (term : Tok)
    (ps : List Posting) (p : Posting)
    (h : (build_engine docs).indexer_content.lookup term = some ps) (hp : p ∈ ps) :
    1 ≤ ((assocFind (build_engine docs).doc_lengths p.doc_id).getD 0) := by
  obtain ⟨_, _, h3, h4⟩ := engine_state docs
  rw [htinv_lookup h4 term] at h
  rcases streamModel_provenance (contentStream docs) [] term ps p h hp with
    ⟨ps0, h0, _⟩ | hmem
  · cases h0
  · rcases contentStream_mem hmem with ⟨tc, hget, h1d, w, hw, _⟩
    rw [h3, withIds_map_snd (fun c => (splitWS c.2).length) docs 1,
      assocFind_withIds (docs.map (fun c => (splitWS c.2).length)) 1 p.doc_id h1d,
      List.get?_map, hget]
    show 1 ≤ (splitWS tc.2).length
    exact List.length_pos.2 (content_split_ne_nil hw)

theorem search_by_title_of_empty (e : SearchEngine) (q : List Char)
    (h : preprocessing q true = []) : e.search_by_title q = [] := by
  unfold SearchEngine.search_by_title
  rw [h]
  rfl

theorem search_by_content_of_empty (e : SearchEngine) (q : List Char)
    (h : preprocessing q true = []) : e.search_by_content q = [] := by
  unfold SearchEngine.search_by_content
  rw [h]
  rfl

theorem search_by_tf_idf_of_empty (lg : ℚ → ℚ) (e : SearchEngine) (q : List Char)
    (h : preprocessing q true = []) : e.search_by_tf_idf lg q = [] := by
  unfold SearchEngine.search_by_tf_idf SearchEngine.ranked_results
  have hscores : e.tf_idf_scores lg q = e.documents.map (fun p => (p.1, (0 : ℚ))) := by
    unfold SearchEngine.tf_idf_scores
    rw [h]
    rfl
  rw [hscores]
  have hfil : (sortByScoreDesc (e.documents.map (fun p => (p.1, (0 : ℚ))))).filter
      (fun p => !(decide (p.2 = 0))) = [] := by
    rw [List.filter_eq_nil_iff]
    intro a ha
    rcases List.mem_map.1 (mem_sortByScoreDesc ha) with ⟨p, _, hpa⟩
    have : a.2 = 0 := by rw [← hpa]
    simp [this]
  rw [hfil]
  rfl

theorem htinv_applyOps (ops : List TOp) :
    HTInv (applyOps ops) (ops.foldl modelOp []) := by
  suffices h : ∀ (ht : HashTable) (m : Bucket), HTInv ht m →
      HTInv (ops.foldl applyOp ht) (ops.foldl modelOp m) by
    exact h HashTable.empty [] htinv_empty
  induction ops with
  | nil => intro ht m inv; exact inv
  | cons op rest ih =>
    intro ht m inv
    rw [List.foldl_cons, List.foldl_cons]
    cases op with
    | ins k v => exact ih _ _ (htinv_insert inv k v)
    | rem k => exact ih _ _ (htinv_remove inv k)

/-- Claim C3, counterexample: the claim says `add_document` normalizes the
    title in plain stopword-filter mode (`is_query=True` mode, no noun
    heuristic).  It does not: `preprocessing(title, is_query=False)` runs the
    noun extractor on the title too, so indexing the title of
    `("running water", "x")` drops `running` and differs from plain-mode
    indexing. -/
theorem C3_counterexample :
    ¬ (∀ (e : SearchEngine) (t c : List Char),
      (e.add_document t c).indexer_title
        = indexerAddDocument e.indexer_title e.no_of_docs (preprocessing t true)) := by
  intro hall
  have h := hall SearchEngine.init ("running water").data ("x").data
  exact absurd h (by decide)

/-- Claim C3, amended: `add_document` normalizes BOTH the title and the
    content with the noun-filtered mode (`is_query=False`), while queries are
    normalized in plain mode: `preprocessing(·, True)` is exactly the
    punctuation-strip / tokenize / stopword-filter pipeline with no
    `extract_nouns` step, and `preprocessing(·, False)` is the same pipeline
    with `extract_nouns` applied. -/
theorem C3_amended :
    (∀ (e : SearchEngine) (t c : List Char),
      (e.add_document t c).indexer_title
          = indexerAddDocument e.indexer_title e.no_of_docs (preprocessing t false) ∧
        (e.add_document t c).indexer_content
          = indexerAddDocument e.indexer_content e.no_of_docs (preprocessing c false)) ∧
    (∀ text : List Char,
      preprocessing text true
        = (splitWS (pyStrip (stripPunct text))).filter
            (fun w => !(decide (lowerTok w ∈ stop_words)))) ∧
    (∀ text : List Char,
      preprocessing text false
        = (extract_nouns (splitWS (pyStrip (stripPunct text)))).filter
            (fun w => !(decide (lowerTok w ∈ stop_words)))) :=
  ⟨fun _ _ _ => ⟨rfl, rfl⟩, fun _ => rfl, fun _ => rfl⟩

/-- Claim C5, counterexample: the stored document length is NOT the number of
    normalized terms of the content.  For content `"the the"` preprocessing
    yields no terms, but the stored length is `len("the the".split()) = 2`. -/
theorem C5_counterexample :
    ¬ (∀ (docs : List (List Char × List Char)) (d : Nat) (tc : List Char × List Char),
      1 ≤ d → docs.get? (d - 1) = some tc →
      assocFind (build_engine docs).doc_lengths d
        = some ((preprocessing tc.2 false).length)) := by
  intro hall
  have h := hall [(("t").data, ("the the").data)] 1 (("t").data, ("the the").data)
    (by decide) (by decide)
  exact absurd h (by decide)

/-- Claim C5, amended: the length stored for each document at ingestion is the
    number of whitespace-separated tokens of the RAW content
    (`len(content.split())`), not the normalized-term count; it is computed
    once inside `add_document` and fully determined by the corpus (later
    `add_document` calls only append new entries, and the search operations are
    pure), so it is never recomputed or changed. -/
theorem C5_amended : ∀ docs : List (List Char × List Char),
    (build_engine docs).doc_lengths
      = (withIds 1 docs).map (fun p => (p.1, (splitWS p.2.2).length)) :=
  fun docs => (engine_state docs).2.2.1

/-- Claim C6, counterexample: `add_document` does NOT return the allocated
    document id — the Python method has no `return` statement, so every call
    returns `None`. -/
theorem C6_counterexample :
    ¬ (∀ (e : SearchEngine) (t c : List Char),
      (e.add_document_ret t c).2 = some e.no_of_docs) := by
  intro hall
  have h := hall SearchEngine.init ("t").data ("c").data
  exact absurd h (by decide)

/-- Claim C6, amended: `add_document` returns no value (`None`), and the ids
    assigned across any sequence of calls are exactly `1, 2, 3, ...` in
    insertion order with no gaps and no reuse (`documents` holds precisely the
    keys `range' 1 n`, and the counter sits at `n + 1`). -/
theorem C6_amended :
    (∀ (e : SearchEngine) (t c : List Char), (e.add_document_ret t c).2 = none) ∧
    ∀ docs : List (List Char × List Char),
      (build_engine docs).documents.map Prod.fst = List.range' 1 docs.length ∧
      (build_engine docs).no_of_docs = docs.length + 1 :=
  ⟨fun _ _ _ => rfl,
    fun docs => ⟨by rw [(engine_state docs).2.1, withIds_map_fst], (engine_state docs).1⟩⟩

/-- Claim C7 (confirmed): for every ranked query the resulting sequence of
    `(document_id, score)` pairs is sorted by score in strictly descending
    order with ties broken by ascending document id, both in the
    `ranked_results` list and in the rendered output (which additionally drops
    zero scores). -/
theorem C7_theorem : ∀ (lg : ℚ → ℚ) (docs : List (List Char × List Char)) (q : List Char),
    ((build_engine docs).ranked_results lg q).Pairwise rankRel ∧
    ((build_engine docs).search_by_tf_idf lg q).Pairwise
      (fun a b => b.2.1 < a.2.1 ∨ (a.2.1 = b.2.1 ∧ a.1 < b.1)) := by
  intro lg docs q
  have h0 : ((build_engine docs).ranked_results lg q).Pairwise rankRel := by
    unfold SearchEngine.ranked_results
    apply sortByScoreDesc_pairwise
    have h1 := List.pairwise_lt_range' 1 docs.length
    rw [← tf_idf_scores_map_fst lg docs q] at h1
    exact List.pairwise_map.1 h1
  refine ⟨h0, ?_⟩
  unfold SearchEngine.search_by_tf_idf
  apply List.pairwise_map.2
  have h2 : (((build_engine docs).ranked_results lg q).filter
      (fun p => !(decide (p.2 = 0)))).Pairwise rankRel := h0.filter _
  apply h2.imp
  intro a b hab
  exact hab

/-- Claim C8 (confirmed): a query that normalizes to the empty term sequence
    (for example, one consisting entirely of stopwords) makes
    `search_by_title`, `search_by_content` and the ranked search all return an
    empty result, with no error: all three are total functions here and
    produce `[]`. -/
theorem C8_theorem : ∀ (e : SearchEngine) (q : List Char), preprocessing q true = [] →
    e.search_by_title q = [] ∧ e.search_by_content q = [] ∧
    ∀ lg : ℚ → ℚ, e.search_by_tf_idf lg q = [] :=
  fun e q h => ⟨search_by_title_of_empty e q h, search_by_content_of_empty e q h,
    fun lg => search_by_tf_idf_of_empty lg e q h⟩

/-- Witness for C8 at the stopword-only query `"the"` against a one-document
    engine. -/
theorem C8_witness :
    (preprocessing ("the").data true = []) ∧
    ((build_engine [(("a").data, ("gold").data)]).search_by_title ("the").data = [] ∧
      (build_engine [(("a").data, ("gold").data)]).search_by_content ("the").data = [] ∧
      ∀ lg : ℚ → ℚ,
        (build_engine [(("a").data, ("gold").data)]).search_by_tf_idf lg ("the").data = []) :=
  ⟨by decide, C8_theorem (build_engine [(("a").data, ("gold").data)]) ("the").data (by decide)⟩

/-- Claim C4 (confirmed): (a) over every insert sequence from the fresh table
    the load factor never ends an insert above 0.7 — whenever the count crosses
    the threshold the capacity has doubled before the insert returns; (b) with
    pairwise-distinct keys every previously inserted key is still retrievable
    by `lookup` with its original value, across arbitrarily many resizes (no
    loss, no duplication); (c) concretely, the twenty distinct single-letter
    keys grow the capacity from 16 to 32. -/
theorem C4_theorem :
    (∀ inserts : List (Tok × List Posting),
      10 * (foldInserts inserts).count ≤ 7 * (foldInserts inserts).size) ∧
    (∀ inserts : List (Tok × List Posting), (inserts.map Prod.fst).Nodup →
      ∀ kv ∈ inserts, (foldInserts inserts).lookup kv.1 = some kv.2) ∧
    ((((List.range 20).map
        (fun i => ([Char.ofNat (97 + i)], ([⟨1, 1⟩] : List Posting)))).map Prod.fst).Nodup ∧
      HashTable.empty.size = 16 ∧
      (foldInserts ((List.range 20).map
        (fun i => ([Char.ofNat (97 + i)], ([⟨1, 1⟩] : List Posting))))).size = 32) := by
  refine ⟨fun inserts => (foldInserts_load inserts).2, ?_, by decide, by decide, by decide⟩
  intro inserts hnd kv hkv
  have hinv := htinv_foldInserts inserts
  have hm : foldModel inserts [] = inserts := by
    have h := foldModel_fresh inserts [] (by simpa using hnd)
    simpa using h
  rw [htinv_lookup hinv kv.1, show foldModel inserts [] = inserts from hm]
  exact assocFind_eq_some_of_mem hnd (by rw [Prod.mk.eta]; exact hkv)

/-- Witness for C4 on the distinct-keys round trip of the twenty-key scenario. -/
theorem C4_witness :
    ((((List.range 20).map
        (fun i => ([Char.ofNat (97 + i)], ([⟨1, 1⟩] : List Posting)))).map Prod.fst).Nodup ∧
      (("a").data, ([⟨1, 1⟩] : List Posting)) ∈ (List.range 20).map
        (fun i => ([Char.ofNat (97 + i)], ([⟨1, 1⟩] : List Posting)))) ∧
    (foldInserts ((List.range 20).map
        (fun i => ([Char.ofNat (97 + i)], ([⟨1, 1⟩] : List Posting))))).lookup ("a").data
      = some [⟨1, 1⟩] :=
  ⟨⟨by decide, by decide⟩,
    C4_theorem.2.1 _ (by decide) (("a").data, ([⟨1, 1⟩] : List Posting)) (by decide)⟩

/-- Claim C9 (confirmed): after every operation sequence the `count` field
    equals the number of stored entries, whose keys are pairwise distinct (so
    `count` is the number of distinct keys stored); inserting a present key
    merges without touching `count`, inserting a fresh key increments it by
    exactly one, and removing a present key reports success and decrements it
    by exactly one. -/
theorem C9_theorem : ∀ ops : List TOp,
    (((applyOps ops).table.flatten.map Prod.fst).Nodup ∧
      (applyOps ops).count = (applyOps ops).table.flatten.length) ∧
    (∀ (key : Tok) (value : List Posting), (applyOps ops).lookup key ≠ none →
      ((applyOps ops).insert key value).count = (applyOps ops).count) ∧
    (∀ (key : Tok) (value : List Posting), (applyOps ops).lookup key = none →
      ((applyOps ops).insert key value).count = (applyOps ops).count + 1) ∧
    (∀ key : Tok, (applyOps ops).lookup key ≠ none →
      ((applyOps ops).remove key).1 = true ∧
      ((applyOps ops).remove key).2.count = (applyOps ops).count - 1) := by
  intro ops
  have inv := htinv_applyOps ops
  have hfl := htinv_flatten inv
  refine ⟨⟨?_, ?_⟩, fun key value h => insert_count_merge value h,
    fun key value h => insert_count_new value h, fun key h => remove_count_found h⟩
  · exact inv.nodup.perm (hfl.map Prod.fst).symm
  · rw [inv.count_eq, hfl.length_eq]

/-- Witness for C9, the per-operation count deltas after one insert. -/
theorem C9_witness :
    ((applyOps [TOp.ins ("a").data [⟨1, 1⟩]]).lookup ("a").data ≠ none ∧
      (applyOps [TOp.ins ("a").data [⟨1, 1⟩]]).lookup ("b").data = none) ∧
    (((applyOps [TOp.ins ("a").data [⟨1, 1⟩]]).insert ("a").data [⟨2, 1⟩]).count
        = (applyOps [TOp.ins ("a").data [⟨1, 1⟩]]).count ∧
      ((applyOps [TOp.ins ("a").data [⟨1, 1⟩]]).insert ("b").data [⟨2, 1⟩]).count
        = (applyOps [TOp.ins ("a").data [⟨1, 1⟩]]).count + 1 ∧
      ((applyOps [TOp.ins ("a").data [⟨1, 1⟩]]).remove ("a").data).1 = true) :=
  ⟨⟨by decide, by decide⟩,
    ⟨(C9_theorem [TOp.ins ("a").data [⟨1, 1⟩]]).2.1 ("a").data [⟨2, 1⟩] (by decide),
      (C9_theorem [TOp.ins ("a").data [⟨1, 1⟩]]).2.2.1 ("b").data [⟨2, 1⟩] (by decide),
      ((C9_theorem [TOp.ins ("a").data [⟨1, 1⟩]]).2.2.2 ("a").data (by decide)).1⟩⟩

/-- Claim C10 (confirmed): the TF division never divides by zero — every
    document id appearing in any content-index posting has a stored length of
    at least 1, because a document whose content yields an indexed token
    necessarily contains a non-whitespace character, hence at least one
    whitespace-separated token in `content.split()`. -/
theorem C10_theorem : ∀ (docs : List (List Char × List Char)) (term : Tok)
    (ps : List Posting) (p : Posting),
    (build_engine docs).indexer_content.lookup term = some ps → p ∈ ps →
    1 ≤ ((assocFind (build_engine docs).doc_lengths p.doc_id).getD 0) :=
  fun docs term ps p h hp => engine_posting_doclen docs term ps p h hp

/-- Witness for C10 on a one-document corpus. -/
theorem C10_witness :
    ((build_engine [(("t").data, ("gold").data)]).indexer_content.lookup ("gold").data
        = some [⟨1, 1⟩] ∧ (⟨1, 1⟩ : Posting) ∈ ([⟨1, 1⟩] : List Posting)) ∧
    1 ≤ ((assocFind (build_engine [(("t").data, ("gold").data)]).doc_lengths
      ((⟨1, 1⟩ : Posting)).doc_id).getD 0) :=
  ⟨⟨by decide, by decide⟩,
    C10_theorem [(("t").data, ("gold").data)] ("gold").data [⟨1, 1⟩] ⟨1, 1⟩
      (by decide) (by decide)⟩

/-- Claim C2, counterexample: the stored term count is NOT the number of times
    the normalized term occurs in the field text of the document.  The noun
    extractor collects words into a Python set, so the two occurrences of
    `gold` in content `"gold gold"` are deduplicated into one insert and the
    posting stores `term_count = 1`, not 2. -/
theorem C2_counterexample :
    ¬ (∀ (docs : List (List Char × List Char)) (d : Nat) (tc : List Char × List Char),
      1 ≤ d → docs.get? (d - 1) = some tc → ∀ term : Tok,
      postingCount (((build_engine docs).indexer_content.lookup term).getD []) d
        = (splitWS (pyStrip (stripPunct tc.2))).countP
            (fun w => decide (lowerTok w = term))) := by
  intro hall
  have h := hall [(("t").data, ("gold gold").data)] 1 (("t").data, ("gold gold").data)
    (by decide) (by decide) ("gold").data
  exact absurd h (by decide)

/-- Claim C2, amended: for every document and term, the stored `term_count`
    equals the number of DISTINCT surviving word variants — the words of
    `preprocessing(content, is_query=False)`, which deduplicates repeated
    occurrences through the set of the noun extractor — whose lowercase form is the
    term (so `"Gold gold"` counts 2 while `"gold gold"` counts 1); moreover
    the posting list of each term holds at most one posting per document (no
    duplicate postings; the count only ever grows by merges, never
    decrements). -/
theorem C2_amended : ∀ (docs : List (List Char × List Char)) (d : Nat)
    (tc : List Char × List Char), 1 ≤ d → docs.get? (d - 1) = some tc → ∀ term : Tok,
    postingCount (((build_engine docs).indexer_content.lookup term).getD []) d
        = (preprocessing tc.2 false).countP (fun w => decide (lowerTok w = term)) ∧
    ∀ ps, (build_engine docs).indexer_content.lookup term = some ps →
      (ps.map Posting.doc_id).Nodup :=
  fun docs d tc h1 hget term =>
    ⟨engine_termCount docs d h1 tc hget term,
      fun ps h => engine_postings_nodup docs term ps h⟩

/-- Witness for the amended C2 characterization: content `"Gold gold"` keeps the
    two distinct variants `Gold` and `gold`, both lowercasing to `gold`, so the
    stored count is 2. -/
theorem C2_amended_witness :
    (1 ≤ 1 ∧ [(("t").data, ("Gold gold").data)].get? (1 - 1)
        = some (("t").data, ("Gold gold").data)) ∧
    (postingCount (((build_engine [(("t").data, ("Gold gold").data)]).indexer_content.lookup
          ("gold").data).getD []) 1
        = (preprocessing ("Gold gold").data false).countP
            (fun w => decide (lowerTok w = ("gold").data)) ∧
      ∀ ps, (build_engine [(("t").data, ("Gold gold").data)]).indexer_content.lookup
          ("gold").data = some ps → (ps.map Posting.doc_id).Nodup) :=
  ⟨⟨by decide, by decide⟩,
    C2_amended [(("t").data, ("Gold gold").data)] 1 (("t").data, ("Gold gold").data)
      (by decide) (by decide) ("gold").data⟩

/-- Claim C1, counterexample: the IDF total is NOT the number of documents
    added.  `search_by_tf_idf` computes `log(no_of_docs / (df + 1))` where the
    counter `no_of_docs` starts at 1 and is incremented after each add, so
    after `N` documents it equals `N + 1`.  The natural logarithm is abstracted
    by any `lg : ℚ → ℚ` sharing the two relevant facts `lg 1 = 0` and
    `lg (1/2) ≠ 0`; for one document and a query hitting a term of document
    frequency 1, the code scores with `lg ((N+1)/2) = lg 1 = 0` while the
    claim formula gives `lg (N/2) = lg (1/2) ≠ 0`. -/
theorem C1_counterexample :
    ¬ (∀ lg : ℚ → ℚ, lg 1 = 0 → lg (1 / 2) ≠ 0 →
      ∀ (docs : List (List Char × List Char)) (q : List Char) (d : Nat),
        containsQueryTerm (build_engine docs) q d = true →
        scoresVal ((build_engine docs).tf_idf_scores lg q) d
          = claimScore lg (build_engine docs) ((docs.length : ℚ)) q d) := by
  intro hall
  have hpre : preprocessing ("gold").data true = [("gold").data] := by decide
  have hlow : lowerTok ("gold").data = ("gold").data := by decide
  have hlook : (build_engine [(("t").data, ("gold").data)]).indexer_content.lookup
      (("gold").data) = some [⟨1, 1⟩] := by decide
  have hlen : assocFind (build_engine [(("t").data, ("gold").data)]).doc_lengths 1
      = some 1 := by decide
  have hclaim : ∀ (lgf : ℚ → ℚ) (total : ℚ),
      claimScore lgf (build_engine [(("t").data, ("gold").data)]) total ("gold").data 1
        = lgf (total / 2) := by
    intro lgf total
    unfold claimScore
    rw [hpre, List.map_cons, List.map_nil, List.sum_cons, List.sum_nil]
    unfold claimTermScore
    rw [hlow, hlook]
    dsimp only
    rw [hlen]
    norm_num [postingCount, findPosting]
  have h := hall (fun x => 1 - x) (by norm_num) (by norm_num)
    [(("t").data, ("gold").data)] ("gold").data 1 (by decide)
  rw [tf_idf_scoresVal (fun x => 1 - x) [(("t").data, ("gold").data)] ("gold").data 1
    (by decide) (by decide)] at h
  rw [show (build_engine [(("t").data, ("gold").data)]).no_of_docs = 2 from by decide] at h
  rw [hclaim (fun x => 1 - x) (((2 : Nat) : ℚ)),
    hclaim (fun x => 1 - x) ((([(("t").data, ("gold").data)].length : Nat) : ℚ))] at h
  norm_num at h

/-- Claim C1, amended: for every ranked query and every stored document that
    contains at least one query term, the computed score equals the additive
    sum, over the query terms present in the content index, of
    `(term_count / stored document length) * lg(T / (1 + document_frequency))`
    where the total `T` is the number of documents added PLUS ONE (the
    `no_of_docs` counter of the engine, which starts at 1 and is incremented after
    each add).  This holds for every abstraction `lg` of the logarithm, in
    particular for `ln`. -/
theorem C1_amended : ∀ (lg : ℚ → ℚ) (docs : List (List Char × List Char))
    (q : List Char) (d : Nat), 1 ≤ d → d ≤ docs.length →
    containsQueryTerm (build_engine docs) q d = true →
    scoresVal ((build_engine docs).tf_idf_scores lg q) d
      = claimScore lg (build_engine docs) ((docs.length : ℚ) + 1) q d := by
  intro lg docs q d h1 h2 _
  rw [tf_idf_scoresVal lg docs q d h1 h2, (engine_state docs).1]
  rw [Nat.cast_add, Nat.cast_one]

/-- Witness for the amended C1 score formula on a one-document corpus with
    `lg := fun x => x`. -/
theorem C1_amended_witness :
    (1 ≤ 1 ∧ 1 ≤ [(("t").data, ("gold").data)].length ∧
      containsQueryTerm (build_engine [(("t").data, ("gold").data)]) ("gold").data 1
        = true) ∧
    scoresVal ((build_engine [(("t").data, ("gold").data)]).tf_idf_scores
        (fun x => x) ("gold").data) 1
      = claimScore (fun x => x) (build_engine [(("t").data, ("gold").data)])
          ((([(("t").data, ("gold").data)].length : Nat) : ℚ) + 1) ("gold").data 1 :=
  ⟨⟨by decide, by decide, by decide⟩,
    C1_amended (fun x => x) [(("t").data, ("gold").data)] ("gold").data 1
      (by decide) (by decide) (by decide)⟩
